import Mathlib

/-!
# BigNumbers: a shallow embedding of `src/main.cpp`

The C++ class `BigInt` stores a decimal magnitude (`std::string value`) and a sign flag
(`bool isPositive`).  Strings are modelled as `List Char`, the `vector<int>` buffer of
`multiplyStrings` as `List Nat`, `int` loop counters as `Nat` counting down, and exceptions
and undefined reads as `Except Failure`.

Loops whose trip count is not bounded by the length of a string (the recursion of
`karatsubaMultiply`, the inner `while` of `divideStrings`, the `while` of `POWER` and of
`FACTORIAL`) take a `fuel` argument: every run of such a loop may make at most `fuel`
iterations (recursive calls), otherwise the result is `Failure.fuelExhausted`.

`c - '0'` is modelled by `digitVal c = c.toNat - 48` in `Nat`; this agrees with the source
for every character `>= '0'`, in particular on every digit string.  On digit strings the
`int` cells of `multiplyStrings` hold at most 18 and every `sum` is at most 99 (this is the
invariant of `mulInner_inv`), so no `int` wraps around there.  String lengths are taken to
fit an `int`.
-/

namespace BigNumbers

/-! ## Data model -/

/-- The ways a call can fail to return a value. -/
inductive Failure where
  /-- `invalid_argument("Division by zero")` -/
  | divisionByZero
  /-- `invalid_argument("Exponent must be non-negative")` -/
  | negativeExponent
  /-- `std::out_of_range` thrown by `string::substr` -/
  | outOfRange
  /-- the read `num1[n1--]` of `subtractStrings` with `n1 < 0` (undefined behaviour) -/
  | readBeforeStart
  /-- the loop bound of the embedding was reached -/
  | fuelExhausted
  deriving DecidableEq, Repr

/-- The class `BigInt`: `value` is the magnitude, `isPositive` the sign flag. -/
structure BigInt where
  value : List Char
  isPositive : Bool
  deriving DecidableEq, Repr

/-- The value of `c - '0'`. -/
def digitVal (c : Char) : Nat := c.toNat - 48

/-- The character `num + '0'`. -/
def digitChar (num : Nat) : Char := Char.ofNat (num + 48)

/-! ## Construction, normalization, rendering, comparison -/

/-- The loop of `removeLeadingZeros`:
`while (value.size() > 1 && value[0] == '0') value.erase(0, 1);` -/
def stripZeros : List Char → List Char
  | c :: d :: rest => if c = '0' then stripZeros (d :: rest) else c :: d :: rest
  | s => s

/-- `BigInt::removeLeadingZeros` (lines 28-35). -/
def removeLeadingZeros (b : BigInt) : BigInt :=
  let value := stripZeros b.value
  if value = ['0'] then ⟨value, true⟩ else ⟨value, b.isPositive⟩

/-- `BigInt::BigInt(const string&)` (lines 15-21). -/
def BigInt.ofString (val : List Char) : BigInt :=
  match val with
  | '-' :: rest => removeLeadingZeros ⟨rest, false⟩
  | _ => removeLeadingZeros ⟨val, true⟩

/-- `operator<<` (lines 105-108). -/
def render (b : BigInt) : List Char :=
  (if b.isPositive then [] else ['-']) ++ b.value

/-- `std::string::operator>=`: lexicographic comparison of the characters. -/
def strGe : List Char → List Char → Bool
  | [], [] => true
  | [], _ :: _ => false
  | _ :: _, [] => true
  | a :: as, b :: bs =>
    if b.toNat < a.toNat then true
    else if a.toNat < b.toNat then false
    else strGe as bs

/-- `BigInt::operator>=` (lines 37-41). -/
def BigInt.ge (a other : BigInt) : Bool :=
  if a.isPositive != other.isPositive then a.isPositive
  else if a.value.length ≠ other.value.length then
    decide (other.value.length < a.value.length)
  else strGe a.value other.value

/-! ## Digit-string primitives -/

/-- The iterations of the loop of `addStrings` that run after both strings are used up
(`n1 < 0`, `n2 < 0`, `carry != 0`).  The first argument bounds the iterations; `carry`
iterations are always enough, see `carryLoop_fuel`. -/
def carryLoop : Nat → Nat → List Char
  | 0, _ => []
  | fuel + 1, carry =>
    if carry = 0 then [] else digitChar (carry % 10) :: carryLoop fuel (carry / 10)

/-- The iterations of the loop of `addStrings` that run with `n1 < 0`: only `num2` and the
carry are left. -/
def addRest : List Char → Nat → List Char
  | b :: bs, carry =>
    let sum := carry + digitVal b
    digitChar (sum % 10) :: addRest bs (sum / 10)
  | [], carry => carryLoop carry carry

/-- The loop of `addStrings` (lines 183-190).  The two strings are given reversed (the loop
reads them from the last character backwards); the output is in `push_back` order. -/
def addLoop : List Char → List Char → Nat → List Char
  | a :: as, b :: bs, carry =>
    let sum := carry + digitVal a + digitVal b
    digitChar (sum % 10) :: addLoop as bs (sum / 10)
  | a :: as, [], carry =>
    let sum := carry + digitVal a
    digitChar (sum % 10) :: addLoop as [] (sum / 10)
  | [], num2, carry => addRest num2 carry

/-- `BigInt::addStrings` (lines 177-194). -/
def addStrings (num1 num2 : List Char) : List Char :=
  (addLoop num1.reverse num2.reverse 0).reverse

/-- The loop of `subtractStrings` (lines 202-206), on the reversed strings.  The loop runs
while `n1 >= 0 || n2 >= 0 || borrow`; when it runs with `n1 < 0` it reads `num1[-1]`. -/
def subLoop : List Char → List Char → Bool → Except Failure (List Char)
  | [], [], false => .ok []
  | [], _, _ => .error .readBeforeStart
  | a :: as, b :: bs, borrow =>
    let diff : Int := (digitVal a : Int) - (digitVal b : Int) - (if borrow then 1 else 0)
    let borrow1 := decide (diff < 0)
    (subLoop as bs borrow1).map
      (fun r => digitChar (diff + (if borrow1 then 10 else 0)).toNat :: r)
  | a :: as, [], borrow =>
    let diff : Int := (digitVal a : Int) - 0 - (if borrow then 1 else 0)
    let borrow1 := decide (diff < 0)
    (subLoop as [] borrow1).map
      (fun r => digitChar (diff + (if borrow1 then 10 else 0)).toNat :: r)

/-- `BigInt::subtractStrings` (lines 196-210). -/
def subtractStrings (num1 num2 : List Char) : Except Failure (List Char) :=
  (subLoop num1.reverse num2.reverse false).map List.reverse

/-- The body of the inner loop of `multiplyStrings` (lines 117-121). -/
def mulStep (num1 num2 : List Char) (i j : Nat) (result : List Nat) : List Nat :=
  let mul := digitVal (num1.getD i '0') * digitVal (num2.getD j '0')
  let sum := mul + result.getD (i + j + 1) 0
  let result1 := result.set (i + j + 1) (sum % 10)
  result1.set (i + j) (result1.getD (i + j) 0 + sum / 10)

/-- The inner loop `for (int j = n2 - 1; j >= 0; --j)`; the counter argument is `j + 1`. -/
def mulInner (num1 num2 : List Char) (i : Nat) : Nat → List Nat → List Nat
  | 0, result => result
  | j + 1, result => mulInner num1 num2 i j (mulStep num1 num2 i j result)

/-- The outer loop `for (int i = n1 - 1; i >= 0; --i)`; the counter argument is `i + 1`. -/
def mulOuter (num1 num2 : List Char) : Nat → List Nat → List Nat
  | 0, result => result
  | i + 1, result => mulOuter num1 num2 i (mulInner num1 num2 i num2.length result)

/-- The loop that builds `resultStr` (lines 126-130). -/
def cellsToStr : List Nat → List Char → List Char
  | [], resultStr => resultStr
  | num :: rest, resultStr =>
    if resultStr.isEmpty && num == 0 then cellsToStr rest resultStr
    else cellsToStr rest (resultStr ++ [digitChar num])

/-- `BigInt::multiplyStrings` (lines 111-133). -/
def multiplyStrings (num1 num2 : List Char) : List Char :=
  let n1 := num1.length
  let n2 := num2.length
  let result := mulOuter num1 num2 n1 (List.replicate (n1 + n2) 0)
  let resultStr := cellsToStr result []
  if resultStr.isEmpty then ['0'] else resultStr

/-! ## Operations of `BigInt` -/

/-- `BigInt::ADD` (lines 43-46). -/
def BigInt.ADD (a other : BigInt) : BigInt :=
  BigInt.ofString (addStrings a.value other.value)

/-- `BigInt::SUBTRACT` (lines 48-51). -/
def BigInt.SUBTRACT (a other : BigInt) : Except Failure BigInt :=
  (subtractStrings a.value other.value).map BigInt.ofString

/-- The expression `(resultSign ? "" : "-") + result`. -/
def signed (resultSign : Bool) (result : List Char) : List Char :=
  (if resultSign then [] else ['-']) ++ result

/-- `BigInt::MULTIPLY` (lines 53-58). -/
def BigInt.MULTIPLY (a other : BigInt) : BigInt :=
  if a.value = ['0'] ∨ other.value = ['0'] then BigInt.ofString ['0']
  else
    let result := multiplyStrings a.value other.value
    let resultSign := a.isPositive == other.isPositive
    BigInt.ofString (signed resultSign result)

/-- `string::substr(pos)`: throws `out_of_range` when `pos > size()`. -/
def substrFrom (s : List Char) (pos : Nat) : Except Failure (List Char) :=
  if s.length < pos then .error .outOfRange else .ok (s.drop pos)

/-- The `size_t` difference `x.size() - n` (wraps modulo `2^64`). -/
def sizeSub (size n : Nat) : Nat := (size + 2 ^ 64 - n % 2 ^ 64) % 2 ^ 64

/-- `BigInt::karatsubaMultiply` (lines 135-156) with the calls of `KARATSUBA_MULTIPLY`
(lines 60-65) written out; `fuel` bounds the depth of the recursion. -/
def karatsubaMultiply : Nat → List Char → List Char → Except Failure (List Char)
  | 0, _, _ => .error .fuelExhausted
  | fuel + 1, x, y =>
    let n := max x.length y.length
    if n = 1 then .ok (multiplyStrings x y)
    else
      let n := n / 2 + n % 2
      let KARATSUBA_MULTIPLY (a other : BigInt) : Except Failure BigInt :=
        if a.value = ['0'] ∨ other.value = ['0'] then .ok (BigInt.ofString ['0'])
        else do
          let result ← karatsubaMultiply fuel a.value other.value
          let resultSign := a.isPositive == other.isPositive
          .ok (BigInt.ofString (signed resultSign result))
      do
        let x1 := if n < x.length then x.take (x.length - n) else ['0']
        let x0 ← substrFrom x (sizeSub x.length n)
        let y1 := if n < y.length then y.take (y.length - n) else ['0']
        let y0 ← substrFrom y (sizeSub y.length n)
        let X1 := BigInt.ofString x1
        let X0 := BigInt.ofString x0
        let Y1 := BigInt.ofString y1
        let Y0 := BigInt.ofString y0
        let z2 ← KARATSUBA_MULTIPLY X1 Y1
        let z0 ← KARATSUBA_MULTIPLY X0 Y0
        let p ← KARATSUBA_MULTIPLY (X1.ADD X0) (Y1.ADD Y0)
        let q ← p.SUBTRACT z2
        let z1 ← q.SUBTRACT z0
        let result := z2.value ++ List.replicate (2 * n) '0'
        let result := addStrings result (z1.value ++ List.replicate n '0')
        let result := addStrings result z0.value
        .ok result

/-- `BigInt::KARATSUBA_MULTIPLY` (lines 60-65). -/
def BigInt.KARATSUBA_MULTIPLY (fuel : Nat) (a other : BigInt) : Except Failure BigInt :=
  if a.value = ['0'] ∨ other.value = ['0'] then .ok (BigInt.ofString ['0'])
  else do
    let result ← karatsubaMultiply fuel a.value other.value
    let resultSign := a.isPositive == other.isPositive
    .ok (BigInt.ofString (signed resultSign result))

/-- The inner loop of `divideStrings` (lines 167-170); returns `tempDividend` and `count`. -/
def divLoop : Nat → BigInt → List Char → Nat → Except Failure (BigInt × Nat)
  | 0, _, _, _ => .error .fuelExhausted
  | fuel + 1, tempDividend, divisor, count =>
    if tempDividend.ge (BigInt.ofString divisor) then do
      let t ← tempDividend.SUBTRACT (BigInt.ofString divisor)
      divLoop fuel t divisor (count + 1)
    else .ok (tempDividend, count)

/-- The outer loop of `divideStrings` (lines 164-172) over the characters of `dividend`. -/
def divDigits (fuel : Nat) (divisor : List Char) :
    List Char → BigInt → List Char → Except Failure (List Char)
  | [], _, result => .ok result
  | digit :: rest, tempDividend, result => do
    let t := tempDividend.ADD (BigInt.ofString [digit])
    let (t1, count) ← divLoop fuel t divisor 0
    divDigits fuel divisor rest t1 (result ++ [digitChar count])

/-- `BigInt::divideStrings` (lines 159-175). -/
def divideStrings (fuel : Nat) (dividend divisor : List Char) : Except Failure (List Char) :=
  if divisor = ['0'] then .error .divisionByZero
  else do
    let result ← divDigits fuel divisor dividend (BigInt.ofString ['0']) []
    .ok (if result.isEmpty then ['0'] else result)

/-- `BigInt::DIVIDE` (lines 67-72). -/
def BigInt.DIVIDE (fuel : Nat) (a other : BigInt) : Except Failure BigInt :=
  if other.value = ['0'] then .error .divisionByZero
  else do
    let resultSign := a.isPositive == other.isPositive
    let quotient ← divideStrings fuel a.value other.value
    .ok (BigInt.ofString (signed resultSign quotient))

/-- The loop of `POWER` (lines 80-86). -/
def powLoop : Nat → Int → BigInt → BigInt → Except Failure BigInt
  | 0, _, _, _ => .error .fuelExhausted
  | fuel + 1, exponent, base, result =>
    if 0 < exponent then
      let result1 := if exponent % 2 = 1 then result.MULTIPLY base else result
      powLoop fuel (exponent / 2) (base.MULTIPLY base) result1
    else .ok result

/-- `BigInt::POWER` (lines 74-89). -/
def BigInt.POWER (fuel : Nat) (a : BigInt) (exponent : Int) : Except Failure BigInt :=
  if exponent < 0 then .error .negativeExponent
  else if exponent = 0 then .ok (BigInt.ofString ['1'])
  else powLoop fuel exponent a (BigInt.ofString ['1'])

/-- The loop of `FACTORIAL` (lines 97-101) together with the final multiplication. -/
def factLoop : Nat → List Char → BigInt → BigInt → Except Failure BigInt
  | 0, _, _, _ => .error .fuelExhausted
  | fuel + 1, target, result, counter =>
    if counter.value ≠ target then
      factLoop fuel target (result.MULTIPLY counter) (counter.ADD (BigInt.ofString ['1']))
    else .ok (result.MULTIPLY counter)

/-- `BigInt::FACTORIAL` (lines 91-103). -/
def BigInt.FACTORIAL (fuel : Nat) (a : BigInt) : Except Failure BigInt :=
  if a.value = ['0'] then .ok (BigInt.ofString ['1'])
  else factLoop fuel a.value (BigInt.ofString ['1']) (BigInt.ofString ['1'])

/-! ## Specification vocabulary -/

/-- A decimal digit character `'0'..'9'`. -/
def IsDigit (c : Char) : Prop := 48 ≤ c.toNat ∧ c.toNat ≤ 57

instance (c : Char) : Decidable (IsDigit c) := by unfold IsDigit; infer_instance

/-- Every character of the string is a decimal digit. -/
def IsDigits (s : List Char) : Prop := ∀ c ∈ s, IsDigit c

instance (s : List Char) : Decidable (IsDigits s) := by unfold IsDigits; infer_instance

/-- The digits of a literal: the string without its leading `-`, if it has one. -/
def digitsOf : List Char → List Char
  | '-' :: rest => rest
  | s => s

/-- The strings of the form `-?[0-9]+`. -/
def ValidDecimal (s : List Char) : Prop := digitsOf s ≠ [] ∧ IsDigits (digitsOf s)

instance (s : List Char) : Decidable (ValidDecimal s) := by unfold ValidDecimal; infer_instance

/-- Invariant I1: the magnitude is a non-empty string of digits. -/
def I1 (b : BigInt) : Prop := b.value ≠ [] ∧ IsDigits b.value

/-- Invariant I2: no leading zero unless the length of the magnitude is exactly 1. -/
def I2 (b : BigInt) : Prop := b.value.head? = some '0' → b.value.length = 1

instance (b : BigInt) : Decidable (I1 b) := by unfold I1; infer_instance

instance (b : BigInt) : Decidable (I2 b) := by unfold I2; infer_instance

/-- Invariant I3: the magnitude `"0"` has the non-negative sign flag. -/
def I3 (b : BigInt) : Prop := b.value = ['0'] → b.isPositive = true

instance (b : BigInt) : Decidable (I3 b) := by unfold I3; infer_instance

/-- The normalization invariants I1-I3 of the data model. -/
def Inv (b : BigInt) : Prop := I1 b ∧ I2 b ∧ I3 b

instance (b : BigInt) : Decidable (Inv b) := by unfold Inv; infer_instance

instance {α : Type} [DecidableEq α] : DecidableEq (Except Failure α) := by
  intro x y
  cases x with
  | error e =>
    cases y with
    | error f =>
      exact if h : e = f then isTrue (by rw [h]) else isFalse (fun h2 => h (Except.error.inj h2))
    | ok b => exact isFalse (fun h => by cases h)
  | ok a =>
    cases y with
    | error f => exact isFalse (fun h => by cases h)
    | ok b =>
      exact if h : a = b then isTrue (by rw [h]) else isFalse (fun h2 => h (Except.ok.inj h2))

/-- The number denoted by a digit string given least significant digit first. -/
def leVal : List Char → Nat
  | [] => 0
  | c :: cs => digitVal c + 10 * leVal cs

/-- The number denoted by a digit string (most significant digit first). -/
def strVal (s : List Char) : Nat := leVal s.reverse

/-- The decimal digits of `n`, least significant first; `fuel` bounds the number of digits. -/
def leDigits : Nat → Nat → List Char
  | 0, _ => []
  | fuel + 1, n => if n < 10 then [digitChar n] else digitChar (n % 10) :: leDigits fuel (n / 10)

/-- The canonical decimal representation of `n`. -/
def toDecimal (n : Nat) : List Char := (leDigits (n + 1) n).reverse

/-- The non-negative `BigInt` denoting `n`. -/
def BigInt.ofNat (n : Nat) : BigInt := ⟨toDecimal n, true⟩

/-- The integer denoted by a `BigInt`. -/
def BigInt.toInt (b : BigInt) : Int :=
  if b.isPositive then (strVal b.value : Int) else -(strVal b.value : Int)

/-- The `BigInt` denoting the integer `z`. -/
def BigInt.ofInteger (z : Int) : BigInt := ⟨toDecimal z.natAbs, decide (0 ≤ z)⟩

/-- The canonical rendering of a literal `-?[0-9]+`, following the specification: the digits
with leading zeros removed (at least one digit kept), with `-` in front exactly when the
literal began with `-` and its digits are not all `'0'`. -/
def canonicalForm (s : List Char) : List Char :=
  let digits := digitsOf s
  let stripped := digits.dropWhile (fun c => c == '0')
  if stripped = [] then ['0']
  else (if s.head? = some '-' then ['-'] else []) ++ stripped

/-- A canonical magnitude: non-empty, digits only, no leading zero except `"0"` itself. -/
def Normalized (s : List Char) : Prop :=
  s ≠ [] ∧ IsDigits s ∧ (s.head? = some '0' → s.length = 1)

instance (s : List Char) : Decidable (Normalized s) := by unfold Normalized; infer_instance

/-- The 32-bit two's-complement value of an integer (wrap-around modulo `2^32`). -/
def wrapInt32 (z : Int) : Int := (z + 2 ^ 31) % 2 ^ 32 - 2 ^ 31

/-- The library function `std::abs(int)`, with the overflow at `INT_MIN` wrapping around. -/
def absInt (val : Int) : Int := wrapInt32 (if val < 0 then -val else val)

/-- The library function `std::to_string(int)`. -/
def toStringInt (val : Int) : List Char :=
  if val < 0 then '-' :: toDecimal val.natAbs else toDecimal val.natAbs

/-- `BigInt::BigInt(int)` (lines 23-26). -/
def BigInt.ofInt (val : Int) : BigInt :=
  ⟨toStringInt (absInt val), decide (0 ≤ val)⟩

/-- The number denoted by a buffer of cells (most significant first), each cell weighted
by its power of ten; cells may hold values above 9. -/
def cellsVal : List Nat → Nat
  | [] => 0
  | c :: cs => c * 10 ^ cs.length + cellsVal cs

/-- The quotient digits `divideStrings` produces, as arithmetic on numbers: each digit of
the dividend is added to the running remainder `r` (which is not multiplied by ten), and the
quotient digit is the number of times the divisor `d` fits. -/
def quotDigits (d : Nat) : Nat → List Char → List Char
  | _, [] => []
  | r, c :: cs => digitChar ((r + digitVal c) / d) :: quotDigits d ((r + digitVal c) % d) cs

/-- The sum of the decimal digits of a digit string. -/
def digitSum (s : List Char) : Nat := (s.map digitVal).sum

/-- The half length `n = (n / 2) + (n % 2)` of `karatsubaMultiply` (line 140), where `n`
was `max(x.size(), y.size())`. -/
def halfLen (x y : List Char) : Nat :=
  max x.length y.length / 2 + max x.length y.length % 2

/-- The high part `x.size() > n ? x.substr(0, x.size() - n) : "0"` (lines 141 and 143). -/
def highPart (n : Nat) (x : List Char) : List Char :=
  if n < x.length then x.take (x.length - n) else ['0']

/-- The part of `karatsubaMultiply` after the split (lines 146-155): the three products,
the two subtractions and the combination. -/
def karatsubaCombine (fuel n : Nat) (x1 x0 y1 y0 : List Char) : Except Failure (List Char) := do
  let z2 ← (BigInt.ofString x1).KARATSUBA_MULTIPLY fuel (BigInt.ofString y1)
  let z0 ← (BigInt.ofString x0).KARATSUBA_MULTIPLY fuel (BigInt.ofString y0)
  let p ← ((BigInt.ofString x1).ADD (BigInt.ofString x0)).KARATSUBA_MULTIPLY fuel
    ((BigInt.ofString y1).ADD (BigInt.ofString y0))
  let q ← p.SUBTRACT z2
  let z1 ← q.SUBTRACT z0
  .ok (addStrings
    (addStrings (z2.value ++ List.replicate (2 * n) '0') (z1.value ++ List.replicate n '0'))
    z0.value)

/-- The outcomes of `karatsubaMultiply` on canonical non-zero magnitudes: a non-empty digit
string denoting `v`, the `out_of_range` failure of `substr`, or the exhaustion of the fuel,
the last only when the condition `enough` on the fuel fails. -/
def KOut (res : Except Failure (List Char)) (v : Nat) (enough : Prop) : Prop :=
  (∃ r, res = .ok r ∧ IsDigits r ∧ r ≠ [] ∧ strVal r = v) ∨
    res = .error .outOfRange ∨ (res = .error .fuelExhausted ∧ ¬ enough)

/-! ## Digits and values -/

theorem digitVal_digitChar {d : Nat} (h : d < 10) : digitVal (digitChar d) = d := by
  interval_cases d <;> rfl

theorem isDigit_digitChar {d : Nat} (h : d < 10) : IsDigit (digitChar d) := by
  interval_cases d <;> decide

theorem digitChar_digitVal {c : Char} (h : IsDigit c) : digitChar (digitVal c) = c := by
  obtain ⟨h1, h2⟩ := h
  unfold digitChar digitVal
  rw [Nat.sub_add_cancel h1]
  exact Char.ofNat_toNat c

theorem digitVal_lt {c : Char} (h : IsDigit c) : digitVal c < 10 := by
  obtain ⟨h1, h2⟩ := h
  unfold digitVal; omega

theorem digitVal_inj {c d : Char} (hc : IsDigit c) (hd : IsDigit d)
    (h : digitVal c = digitVal d) : c = d := by
  rw [← digitChar_digitVal hc, ← digitChar_digitVal hd, h]

theorem digitVal_zero : digitVal '0' = 0 := rfl

theorem digitVal_eq_zero {c : Char} (hc : IsDigit c) (h : digitVal c = 0) : c = '0' :=
  digitVal_inj hc (by decide) (by rw [h]; rfl)

theorem leading_zero_iff (s : List Char) :
    (s.head? = some '0' → s.length = 1) ↔ ∀ rest, s = '0' :: rest → rest = [] := by
  cases s with
  | nil => simp
  | cons c s =>
    simp only [List.head?_cons, Option.some.injEq, List.length_cons, List.cons.injEq]
    constructor
    · rintro h rest ⟨hc, hs⟩
      have := h hc
      rw [← hs]
      exact List.length_eq_zero.mp (by omega)
    · intro h hc
      rw [h s ⟨hc, rfl⟩]
      rfl

theorem isDigits_nil : IsDigits [] := by intro c hc; simp at hc

theorem isDigits_cons {c : Char} {s : List Char} :
    IsDigits (c :: s) ↔ IsDigit c ∧ IsDigits s := by
  simp [IsDigits]

theorem isDigits_append {s t : List Char} :
    IsDigits (s ++ t) ↔ IsDigits s ∧ IsDigits t := by
  simp only [IsDigits, List.mem_append]
  constructor
  · intro h; exact ⟨fun c hc => h c (Or.inl hc), fun c hc => h c (Or.inr hc)⟩
  · rintro ⟨h1, h2⟩ c (hc | hc)
    · exact h1 c hc
    · exact h2 c hc

theorem isDigits_reverse {s : List Char} : IsDigits s.reverse ↔ IsDigits s := by
  simp [IsDigits]

theorem isDigits_replicate_zero (n : Nat) : IsDigits (List.replicate n '0') := by
  intro c hc
  rw [List.mem_replicate] at hc
  rw [hc.2]; decide

theorem leVal_append (s t : List Char) :
    leVal (s ++ t) = leVal s + 10 ^ s.length * leVal t := by
  induction s with
  | nil => simp [leVal]
  | cons c s ih =>
    show digitVal c + 10 * leVal (s ++ t) = _
    rw [ih]; simp only [leVal, List.length_cons, pow_succ]; ring

theorem strVal_nil : strVal [] = 0 := rfl

theorem strVal_cons (c : Char) (s : List Char) :
    strVal (c :: s) = digitVal c * 10 ^ s.length + strVal s := by
  simp [strVal, leVal_append, leVal]; ring

theorem strVal_append (s t : List Char) :
    strVal (s ++ t) = strVal s * 10 ^ t.length + strVal t := by
  simp [strVal, leVal_append]; ring

theorem strVal_snoc (s : List Char) (c : Char) :
    strVal (s ++ [c]) = 10 * strVal s + digitVal c := by
  simp [strVal, leVal]; ring

theorem strVal_single (c : Char) : strVal [c] = digitVal c := by
  simp [strVal, leVal]

theorem strVal_reverse (s : List Char) : strVal s.reverse = leVal s := by
  simp [strVal]

theorem leVal_replicate_zero (n : Nat) : leVal (List.replicate n '0') = 0 := by
  induction n with
  | zero => rfl
  | succ n ih => simp [List.replicate_succ, leVal, ih, digitVal_zero]

theorem strVal_replicate_zero (n : Nat) : strVal (List.replicate n '0') = 0 := by
  simp [strVal, leVal_replicate_zero]

theorem leVal_lt {s : List Char} (h : IsDigits s) : leVal s < 10 ^ s.length := by
  induction s with
  | nil => simp [leVal]
  | cons c s ih =>
    rw [isDigits_cons] at h
    have h1 := digitVal_lt h.1
    have h2 := ih h.2
    simp only [leVal, List.length_cons, pow_succ]
    omega

theorem strVal_lt {s : List Char} (h : IsDigits s) : strVal s < 10 ^ s.length := by
  have := leVal_lt (isDigits_reverse.mpr h)
  simpa [strVal] using this

theorem leVal_inj {s t : List Char} (hs : IsDigits s) (ht : IsDigits t)
    (hlen : s.length = t.length) (h : leVal s = leVal t) : s = t := by
  induction s generalizing t with
  | nil =>
    cases t with
    | nil => rfl
    | cons d t => simp at hlen
  | cons c s ih =>
    cases t with
    | nil => simp at hlen
    | cons d t =>
      rw [isDigits_cons] at hs ht
      have h1 := digitVal_lt hs.1
      have h2 := digitVal_lt ht.1
      simp only [leVal] at h
      have hcd : digitVal c = digitVal d := by omega
      have hst : leVal s = leVal t := by omega
      rw [digitVal_inj hs.1 ht.1 hcd, ih hs.2 ht.2 (by simpa using hlen) hst]

theorem strVal_inj_of_length {s t : List Char} (hs : IsDigits s) (ht : IsDigits t)
    (hlen : s.length = t.length) (h : strVal s = strVal t) : s = t := by
  have := leVal_inj (isDigits_reverse.mpr hs) (isDigits_reverse.mpr ht) (by simpa using hlen) h
  simpa using this

/-! ## Canonical representations -/

theorem inv_normalized {b : BigInt} (h : Inv b) : Normalized b.value :=
  ⟨h.1.1, h.1.2, h.2.1⟩

theorem leDigits_ne_nil (fuel n : Nat) : leDigits (fuel + 1) n ≠ [] := by
  unfold leDigits; split_ifs <;> simp

theorem leVal_leDigits (fuel n : Nat) (h : n < fuel) : leVal (leDigits fuel n) = n := by
  induction fuel generalizing n with
  | zero => omega
  | succ fuel ih =>
    unfold leDigits
    split_ifs with h10
    · simp [leVal, digitVal_digitChar h10]
    · have hm : n % 10 < 10 := Nat.mod_lt _ (by norm_num)
      simp only [leVal, digitVal_digitChar hm]
      rw [ih (n / 10) (by omega)]
      omega

theorem isDigits_leDigits (fuel n : Nat) : IsDigits (leDigits fuel n) := by
  induction fuel generalizing n with
  | zero => exact isDigits_nil
  | succ fuel ih =>
    unfold leDigits
    split_ifs with h10
    · exact isDigits_cons.mpr ⟨isDigit_digitChar h10, isDigits_nil⟩
    · exact isDigits_cons.mpr ⟨isDigit_digitChar (Nat.mod_lt _ (by norm_num)), ih _⟩

theorem leDigits_zero_head (fuel n : Nat) (h : n < fuel) (rest : List Char)
    (hr : (leDigits fuel n).reverse = '0' :: rest) : n = 0 := by
  induction fuel generalizing n rest with
  | zero => omega
  | succ fuel ih =>
    unfold leDigits at hr
    split_ifs at hr with h10
    · simp only [List.reverse_cons, List.reverse_nil, List.nil_append, List.cons.injEq] at hr
      have := congrArg digitVal hr.1
      rw [digitVal_digitChar h10] at this
      exact this
    · exfalso
      have hf : n / 10 < fuel := by omega
      obtain ⟨k, hk⟩ : ∃ k, fuel = k + 1 := ⟨fuel - 1, by omega⟩
      have hne : (leDigits fuel (n / 10)).reverse ≠ [] := by
        rw [hk]; simpa using leDigits_ne_nil k (n / 10)
      obtain ⟨x, xs, hx⟩ := List.exists_cons_of_ne_nil hne
      rw [List.reverse_cons, hx] at hr
      simp only [List.cons_append, List.cons.injEq] at hr
      have := ih (n / 10) hf xs (by rw [hx, hr.1])
      omega

theorem strVal_toDecimal (n : Nat) : strVal (toDecimal n) = n := by
  simp [strVal, toDecimal, leVal_leDigits (n + 1) n (Nat.lt_succ_self n)]

theorem toDecimal_zero : toDecimal 0 = ['0'] := rfl

theorem toDecimal_normalized (n : Nat) : Normalized (toDecimal n) := by
  refine ⟨?_, ?_, ?_⟩
  · simpa [toDecimal] using leDigits_ne_nil n n
  · exact isDigits_reverse.mpr (isDigits_leDigits _ _)
  · rw [leading_zero_iff]
    intro rest hr
    have h0 := leDigits_zero_head (n + 1) n (Nat.lt_succ_self n) rest hr
    subst h0
    rw [toDecimal_zero] at hr
    simpa using hr.symm

theorem strVal_lower {c : Char} {s : List Char} (hc : IsDigit c) (h0 : c ≠ '0') :
    10 ^ s.length ≤ strVal (c :: s) := by
  rw [strVal_cons]
  have : digitVal c ≠ 0 := fun h => h0 (digitVal_eq_zero hc h)
  have h1 : 1 ≤ digitVal c := Nat.one_le_iff_ne_zero.mpr this
  calc 10 ^ s.length = 1 * 10 ^ s.length := by ring
    _ ≤ digitVal c * 10 ^ s.length := Nat.mul_le_mul_right _ h1
    _ ≤ _ := Nat.le_add_right _ _

/-- A canonical magnitude other than `"0"` is at least `10 ^ (length - 1)`. -/
theorem normalized_lower {s : List Char} (h : Normalized s) (h0 : s ≠ ['0']) :
    10 ^ (s.length - 1) ≤ strVal s := by
  obtain ⟨hne, hd, hz⟩ := h
  rw [leading_zero_iff] at hz
  cases s with
  | nil => exact absurd rfl hne
  | cons c s =>
    have hc : c ≠ '0' := by
      intro hc
      subst hc
      exact h0 (by rw [hz s rfl])
    simpa using strVal_lower (s := s) (isDigits_cons.mp hd).1 hc

theorem normalized_eq_zero {s : List Char} (h : Normalized s) (h0 : strVal s = 0) :
    s = ['0'] := by
  by_contra hne
  have := normalized_lower h hne
  have hp : 0 < 10 ^ (s.length - 1) := Nat.pos_pow_of_pos _ (by norm_num)
  omega

theorem normalized_length_le {s t : List Char} (hs : Normalized s) (ht : Normalized t)
    (h : strVal s ≤ strVal t) : s.length ≤ t.length := by
  by_cases h0 : s = ['0']
  · subst h0
    have := ht.1
    cases t with
    | nil => exact absurd rfl this
    | cons d t => simp
  · have h1 := normalized_lower hs h0
    have h2 := strVal_lt ht.2.1
    have h3 : 10 ^ (s.length - 1) < 10 ^ t.length := by omega
    have h4 := (Nat.pow_lt_pow_iff_right (by norm_num : 1 < 10)).mp h3
    omega

/-- Canonical magnitudes are determined by the number they denote. -/
theorem normalized_unique {s t : List Char} (hs : Normalized s) (ht : Normalized t)
    (h : strVal s = strVal t) : s = t :=
  strVal_inj_of_length hs.2.1 ht.2.1
    (Nat.le_antisymm (normalized_length_le hs ht h.le) (normalized_length_le ht hs h.ge)) h

theorem toDecimal_strVal {s : List Char} (h : Normalized s) : toDecimal (strVal s) = s :=
  normalized_unique (toDecimal_normalized _) h (strVal_toDecimal _)

theorem toDecimal_inj {m n : Nat} (h : toDecimal m = toDecimal n) : m = n := by
  rw [← strVal_toDecimal m, ← strVal_toDecimal n, h]

theorem toDecimal_eq_zero_iff {n : Nat} : toDecimal n = ['0'] ↔ n = 0 := by
  constructor
  · intro h; exact toDecimal_inj (h.trans toDecimal_zero.symm)
  · intro h; rw [h]; rfl

/-! ## Normalization in the constructor -/

theorem stripZeros_normalized {s : List Char} (hne : s ≠ []) (hd : IsDigits s) :
    Normalized (stripZeros s) ∧ strVal (stripZeros s) = strVal s := by
  induction s with
  | nil => exact absurd rfl hne
  | cons c s ih =>
    cases s with
    | nil =>
      refine ⟨⟨by simp [stripZeros], by simpa [stripZeros] using hd, ?_⟩, by simp [stripZeros]⟩
      rw [leading_zero_iff]
      intro rest hr
      simp [stripZeros] at hr
      exact hr.2
    | cons d rest =>
      have hd2 := (isDigits_cons.mp hd).2
      by_cases hc : c = '0'
      · subst hc
        have := ih (by simp) hd2
        have hs : stripZeros ('0' :: d :: rest) = stripZeros (d :: rest) := by
          simp [stripZeros]
        rw [hs]
        refine ⟨this.1, ?_⟩
        rw [this.2, strVal_cons '0', digitVal_zero]; simp
      · have hs : stripZeros (c :: d :: rest) = c :: d :: rest := by
          simp [stripZeros, hc]
        rw [hs]
        refine ⟨⟨by simp, hd, ?_⟩, rfl⟩
        rw [leading_zero_iff]
        intro r hr
        simp only [List.cons.injEq] at hr
        exact absurd hr.1 hc

theorem stripZeros_eq {s : List Char} (hne : s ≠ []) (hd : IsDigits s) :
    stripZeros s = toDecimal (strVal s) := by
  have := stripZeros_normalized hne hd
  rw [← this.2, toDecimal_strVal this.1]

theorem isDigit_ne_minus {c : Char} (h : IsDigit c) : c ≠ '-' := by
  rintro rfl
  revert h; decide

/-- The constructor on a non-empty digit string: the canonical non-negative value. -/
theorem ofString_digits {s : List Char} (hne : s ≠ []) (hd : IsDigits s) :
    BigInt.ofString s = BigInt.ofNat (strVal s) := by
  cases s with
  | nil => exact absurd rfl hne
  | cons c s =>
    have hc := isDigit_ne_minus (isDigits_cons.mp hd).1
    unfold BigInt.ofString
    split
    · rename_i heq
      simp only [List.cons.injEq] at heq
      exact absurd heq.1 hc
    · simp only [removeLeadingZeros, stripZeros_eq hne hd, BigInt.ofNat]
      split_ifs <;> rfl

/-- The constructor on `-` followed by a non-empty digit string. -/
theorem ofString_minus {s : List Char} (hne : s ≠ []) (hd : IsDigits s) :
    BigInt.ofString ('-' :: s) = ⟨toDecimal (strVal s), decide (strVal s = 0)⟩ := by
  simp only [BigInt.ofString, removeLeadingZeros, stripZeros_eq hne hd, toDecimal_eq_zero_iff]
  split_ifs with h <;> simp [h]

theorem ofString_signed {s : List Char} (hne : s ≠ []) (hd : IsDigits s) (sign : Bool) :
    BigInt.ofString (signed sign s) =
      ⟨toDecimal (strVal s), sign || decide (strVal s = 0)⟩ := by
  cases sign with
  | true => simp [signed, ofString_digits hne hd, BigInt.ofNat]
  | false => simp [signed, ofString_minus hne hd]

/-! ## Invariant-satisfying values are the integers -/

theorem inv_ofInteger (z : Int) : Inv (BigInt.ofInteger z) := by
  have hn := toDecimal_normalized z.natAbs
  refine ⟨⟨hn.1, hn.2.1⟩, hn.2.2, ?_⟩
  intro h
  simp only [BigInt.ofInteger] at h ⊢
  rw [toDecimal_eq_zero_iff] at h
  simp; omega

theorem inv_ofNat (n : Nat) : Inv (BigInt.ofNat n) := by
  have := inv_ofInteger (n : Int)
  simpa [BigInt.ofInteger, BigInt.ofNat] using this

theorem toInt_ofInteger (z : Int) : (BigInt.ofInteger z).toInt = z := by
  simp only [BigInt.toInt, BigInt.ofInteger, strVal_toDecimal]
  by_cases h : 0 ≤ z
  · simp [h]
  · have h2 : ((z.natAbs : Nat) : Int) = -z := Int.ofNat_natAbs_of_nonpos (by omega)
    simp only [h, decide_False, Bool.false_eq_true, if_false, h2]
    omega

theorem ofInteger_toInt {b : BigInt} (h : Inv b) : BigInt.ofInteger b.toInt = b := by
  obtain ⟨value, isPositive⟩ := b
  have hn : Normalized value := inv_normalized h
  have h3 : value = ['0'] → isPositive = true := h.2.2
  cases isPositive with
  | true =>
    simp [BigInt.toInt, BigInt.ofInteger, toDecimal_strVal hn]
  | false =>
    have hv : strVal value ≠ 0 := by
      intro hv
      have := h3 (normalized_eq_zero hn hv)
      simp at this
    simp only [BigInt.toInt, BigInt.ofInteger, Bool.false_eq_true, if_false, Int.natAbs_neg,
      Int.natAbs_ofNat, toDecimal_strVal hn, BigInt.mk.injEq, true_and, decide_eq_false_iff_not]
    omega

/-- Two values satisfying the invariants are equal when they denote the same integer. -/
theorem inv_ext {a b : BigInt} (ha : Inv a) (hb : Inv b) (h : a.toInt = b.toInt) : a = b := by
  rw [← ofInteger_toInt ha, ← ofInteger_toInt hb, h]

theorem ofNat_eq_ofInteger (n : Nat) : BigInt.ofNat n = BigInt.ofInteger n := by
  simp [BigInt.ofInteger, BigInt.ofNat]

theorem value_ofNat (n : Nat) : strVal (BigInt.ofNat n).value = n := strVal_toDecimal n

theorem inv_value {b : BigInt} (h : Inv b) : b.value = toDecimal (strVal b.value) :=
  (toDecimal_strVal (inv_normalized h)).symm

theorem value_eq_zero_iff {b : BigInt} (h : Inv b) : b.value = ['0'] ↔ strVal b.value = 0 := by
  constructor
  · intro h0; rw [h0]; rfl
  · exact normalized_eq_zero (inv_normalized h)

/-! ## Rendering -/

theorem stripZeros_dropWhile {s : List Char} (hne : s ≠ []) :
    stripZeros s =
      if s.dropWhile (fun c => c == '0') = [] then ['0']
      else s.dropWhile (fun c => c == '0') := by
  induction s with
  | nil => exact absurd rfl hne
  | cons c s ih =>
    cases s with
    | nil =>
      by_cases hc : c = '0'
      · subst hc; simp [stripZeros]
      · simp [stripZeros, List.dropWhile_cons, hc]
    | cons d rest =>
      by_cases hc : c = '0'
      · subst hc
        have := ih (by simp)
        simpa [stripZeros, List.dropWhile_cons] using this
      · simp [stripZeros, List.dropWhile_cons, hc]

theorem dropWhile_zero_ne {s : List Char} (h : s.dropWhile (fun c => c == '0') ≠ []) :
    s.dropWhile (fun c => c == '0') ≠ ['0'] := by
  intro h0
  have := List.head_dropWhile_not (fun c => c == '0') s h
  simp [h0] at this

theorem dropWhile_zero_eq_nil {s : List Char} :
    s.dropWhile (fun c => c == '0') = [] ↔ ∀ c ∈ s, c = '0' := by
  simp [List.dropWhile_eq_nil_iff]

/-- Claim C1: for every literal `s` of the form `-?[0-9]+`, rendering `BigInt(s)` with
`operator<<` yields the canonical form: the digits of `s` with leading zeros stripped down to
one digit at least, with `-` in front exactly when `s` began with `-` and its digits are not
all `'0'`; every spelling of zero renders as `"0"`. -/
theorem render_ofString_canonical (s : List Char) (h : ValidDecimal s) :
    render (BigInt.ofString s) = canonicalForm s ∧
      ((∀ c ∈ digitsOf s, c = '0') → render (BigInt.ofString s) = ['0']) := by
  have key : render (BigInt.ofString s) = canonicalForm s := by
    obtain ⟨hne, hd⟩ := h
    unfold BigInt.ofString
    split
    · rename_i rest
      simp only [digitsOf] at hne hd
      simp only [removeLeadingZeros, canonicalForm, digitsOf, stripZeros_dropWhile hne,
        List.head?_cons, if_true]
      by_cases hz : rest.dropWhile (fun c => c == '0') = []
      · simp [hz, render]
      · simp [hz, render, dropWhile_zero_ne hz]
    · rename_i hnot
      have hdig : digitsOf s = s := by
        unfold digitsOf
        split
        · rename_i rest; exact absurd rfl (hnot rest)
        · rfl
      rw [hdig] at hne hd
      have hhead : s.head? ≠ some '-' := by
        cases s with
        | nil => simp
        | cons c s =>
          simp only [List.head?_cons, ne_eq, Option.some.injEq]
          exact isDigit_ne_minus (isDigits_cons.mp hd).1
      simp only [removeLeadingZeros, canonicalForm, hdig, stripZeros_dropWhile hne, hhead,
        if_false]
      by_cases hz : s.dropWhile (fun c => c == '0') = []
      · simp [hz, render]
      · simp [hz, render]
  refine ⟨key, ?_⟩
  intro hall
  rw [key]
  simp [canonicalForm, dropWhile_zero_eq_nil.mpr hall]

/-- Witness for C1 at the literal `-000`. -/
theorem render_ofString_canonical_witness :
    ValidDecimal ['-', '0', '0', '0'] ∧
      (render (BigInt.ofString ['-', '0', '0', '0']) = canonicalForm ['-', '0', '0', '0'] ∧
        ((∀ c ∈ digitsOf ['-', '0', '0', '0'], c = '0') →
          render (BigInt.ofString ['-', '0', '0', '0']) = ['0'])) :=
  ⟨by decide, render_ofString_canonical ['-', '0', '0', '0'] (by decide)⟩

/-! ## Addition of digit strings -/

theorem carryLoop_spec (fuel carry : Nat) (h : carry ≤ fuel) :
    leVal (carryLoop fuel carry) = carry := by
  induction fuel generalizing carry with
  | zero =>
    have : carry = 0 := by omega
    subst this; rfl
  | succ fuel ih =>
    unfold carryLoop
    split_ifs with h0
    · subst h0; rfl
    · have hm : carry % 10 < 10 := Nat.mod_lt _ (by norm_num)
      simp only [leVal, digitVal_digitChar hm]
      rw [ih (carry / 10) (by omega)]
      omega

theorem carryLoop_digits (fuel carry : Nat) : IsDigits (carryLoop fuel carry) := by
  induction fuel generalizing carry with
  | zero => exact isDigits_nil
  | succ fuel ih =>
    unfold carryLoop
    split_ifs with h0
    · exact isDigits_nil
    · exact isDigits_cons.mpr ⟨isDigit_digitChar (Nat.mod_lt _ (by norm_num)), ih _⟩

theorem carryLoop_fuel_eq (f1 f2 carry : Nat) (h1 : carry ≤ f1) (h2 : carry ≤ f2) :
    carryLoop f1 carry = carryLoop f2 carry := by
  induction f1 generalizing f2 carry with
  | zero =>
    have : carry = 0 := by omega
    subst this
    cases f2 <;> simp [carryLoop]
  | succ f1 ih =>
    cases f2 with
    | zero =>
      have : carry = 0 := by omega
      subst this
      simp [carryLoop]
    | succ f2 =>
      simp only [carryLoop]
      split_ifs with h0
      · rfl
      · rw [ih f2 (carry / 10) (by omega) (by omega)]

/-- The bound `carry` on the iterations of `carryLoop` is never reached: more fuel gives
the same string. -/
theorem carryLoop_fuel (fuel carry : Nat) (h : carry ≤ fuel) :
    carryLoop fuel carry = carryLoop carry carry :=
  carryLoop_fuel_eq fuel carry carry h le_rfl

theorem leVal_addRest (b : List Char) (carry : Nat) :
    leVal (addRest b carry) = leVal b + carry := by
  induction b generalizing carry with
  | nil => simp [addRest, leVal, carryLoop_spec]
  | cons y bs ihb =>
    have hm : (carry + digitVal y) % 10 < 10 := Nat.mod_lt _ (by norm_num)
    simp only [addRest, leVal, digitVal_digitChar hm, ihb]
    omega

theorem isDigits_addRest (b : List Char) (carry : Nat) : IsDigits (addRest b carry) := by
  induction b generalizing carry with
  | nil => simpa [addRest] using carryLoop_digits carry carry
  | cons y bs ihb =>
    simp only [addRest]
    exact isDigits_cons.mpr ⟨isDigit_digitChar (Nat.mod_lt _ (by norm_num)), ihb _⟩

theorem leVal_addLoop (a b : List Char) (carry : Nat) :
    leVal (addLoop a b carry) = leVal a + leVal b + carry := by
  induction a generalizing b carry with
  | nil => simp [addLoop, leVal_addRest, leVal]
  | cons x as ih =>
    cases b with
    | nil =>
      have hm : (carry + digitVal x) % 10 < 10 := Nat.mod_lt _ (by norm_num)
      simp only [addLoop, leVal, digitVal_digitChar hm, ih]
      omega
    | cons y bs =>
      have hm : (carry + digitVal x + digitVal y) % 10 < 10 := Nat.mod_lt _ (by norm_num)
      simp only [addLoop, leVal, digitVal_digitChar hm, ih]
      omega

theorem isDigits_addLoop (a b : List Char) (carry : Nat) : IsDigits (addLoop a b carry) := by
  induction a generalizing b carry with
  | nil => simpa [addLoop] using isDigits_addRest b carry
  | cons x as ih =>
    cases b with
    | nil =>
      simp only [addLoop]
      exact isDigits_cons.mpr ⟨isDigit_digitChar (Nat.mod_lt _ (by norm_num)), ih _ _⟩
    | cons y bs =>
      simp only [addLoop]
      exact isDigits_cons.mpr ⟨isDigit_digitChar (Nat.mod_lt _ (by norm_num)), ih _ _⟩

theorem addLoop_ne_nil {a b : List Char} (h : a ≠ [] ∨ b ≠ []) (carry : Nat) :
    addLoop a b carry ≠ [] := by
  cases a with
  | nil =>
    cases b with
    | nil => simp at h
    | cons y bs => simp [addLoop, addRest]
  | cons x as =>
    cases b with
    | nil => simp [addLoop]
    | cons y bs => simp [addLoop]

theorem strVal_addStrings (x y : List Char) :
    strVal (addStrings x y) = strVal x + strVal y := by
  simp [addStrings, strVal, leVal_addLoop]

theorem isDigits_addStrings (x y : List Char) : IsDigits (addStrings x y) :=
  isDigits_reverse.mpr (isDigits_addLoop _ _ _)

theorem addStrings_ne_nil {x y : List Char} (h : x ≠ [] ∨ y ≠ []) : addStrings x y ≠ [] := by
  unfold addStrings
  simp only [ne_eq, List.reverse_eq_nil_iff]
  exact addLoop_ne_nil (by simpa using h) 0

/-- `ADD` returns the canonical non-negative value of the sum of the magnitudes. -/
theorem ADD_eq (a b : BigInt) (ha : a.value ≠ []) :
    a.ADD b = BigInt.ofNat (strVal a.value + strVal b.value) := by
  unfold BigInt.ADD
  rw [ofString_digits (addStrings_ne_nil (Or.inl ha)) (isDigits_addStrings _ _),
    strVal_addStrings]

/-! ## Subtraction of digit strings -/

theorem subLoop_step (as bs : List Char) (D : Int) (dx dy bw : Nat)
    (ih : ∀ borrow : Bool, leVal bs + (if borrow then 1 else 0) ≤ leVal as →
      ∃ r, subLoop as bs borrow = .ok r ∧ IsDigits r ∧ r.length = as.length ∧
        leVal r + leVal bs + (if borrow then 1 else 0) = leVal as)
    (hx : dx < 10) (hy : dy < 10) (hbw : bw ≤ 1) (hD : D = (dx : Int) - (dy : Int) - (bw : Int))
    (hle : dy + 10 * leVal bs + bw ≤ dx + 10 * leVal as) :
    ∃ r, (subLoop as bs (decide (D < 0))).map
          (fun r => digitChar (D + (if decide (D < 0) = true then 10 else 0)).toNat :: r)
        = .ok r ∧ IsDigits r ∧ r.length = as.length + 1 ∧
      leVal r + (dy + 10 * leVal bs) + bw = dx + 10 * leVal as := by
  by_cases hd : D < 0
  · obtain ⟨r, hr, hrd, hrl, hrv⟩ := ih true (by simp only [if_true]; omega)
    have hlt : (D + 10).toNat < 10 := by omega
    refine ⟨digitChar (D + 10).toNat :: r, ?_, ?_, ?_, ?_⟩
    · simp only [hd, decide_True, if_true, hr, Except.map]
    · exact isDigits_cons.mpr ⟨isDigit_digitChar hlt, hrd⟩
    · simp [hrl]
    · simp only [leVal, if_true] at hrv ⊢
      rw [digitVal_digitChar hlt]
      omega
  · obtain ⟨r, hr, hrd, hrl, hrv⟩ := ih false (by simp only [Bool.false_eq_true, if_false]; omega)
    have hlt : (D + 0).toNat < 10 := by omega
    refine ⟨digitChar (D + 0).toNat :: r, ?_, ?_, ?_, ?_⟩
    · simp only [hd, decide_False, Bool.false_eq_true, if_false, hr, Except.map]
    · exact isDigits_cons.mpr ⟨isDigit_digitChar hlt, hrd⟩
    · simp [hrl]
    · simp only [leVal, Bool.false_eq_true, if_false] at hrv ⊢
      rw [digitVal_digitChar hlt]
      omega

theorem subLoop_spec (a b : List Char) (borrow : Bool) (ha : IsDigits a) (hb : IsDigits b)
    (hlen : b.length ≤ a.length)
    (hle : leVal b + (if borrow then 1 else 0) ≤ leVal a) :
    ∃ r, subLoop a b borrow = .ok r ∧ IsDigits r ∧ r.length = a.length ∧
      leVal r + leVal b + (if borrow then 1 else 0) = leVal a := by
  induction a generalizing b borrow with
  | nil =>
    cases b with
    | cons y bs => simp at hlen
    | nil =>
      cases borrow with
      | true => simp [leVal] at hle
      | false => exact ⟨[], rfl, isDigits_nil, rfl, rfl⟩
  | cons x as ih =>
    have hx := digitVal_lt (isDigits_cons.mp ha).1
    have has := (isDigits_cons.mp ha).2
    have hbw : (if borrow then 1 else 0 : Nat) ≤ 1 := by split_ifs <;> omega
    cases b with
    | nil =>
      have := subLoop_step as []
        ((digitVal x : Int) - 0 - (if borrow then 1 else 0)) (digitVal x) 0
        (if borrow then 1 else 0)
        (fun bw h => ih [] bw has isDigits_nil (by simp) h) hx (by norm_num) hbw
        (by cases borrow <;> simp) (by simpa [leVal] using hle)
      exact this
    | cons y bs =>
      have hy := digitVal_lt (isDigits_cons.mp hb).1
      have hbs := (isDigits_cons.mp hb).2
      have hlen' : bs.length ≤ as.length := by simpa using hlen
      have := subLoop_step as bs
        ((digitVal x : Int) - (digitVal y : Int) - (if borrow then 1 else 0))
        (digitVal x) (digitVal y) (if borrow then 1 else 0)
        (fun bw h => ih bs bw has hbs hlen' h) hx hy hbw
        (by cases borrow <;> simp) (by simpa [leVal] using hle)
      exact this

theorem subtractStrings_spec (x y : List Char) (hx : IsDigits x) (hy : IsDigits y)
    (hlen : y.length ≤ x.length) (hle : strVal y ≤ strVal x) :
    ∃ r, subtractStrings x y = .ok r ∧ IsDigits r ∧ r.length = x.length ∧
      strVal r + strVal y = strVal x := by
  obtain ⟨r, hr, hrd, hrl, hrv⟩ := subLoop_spec x.reverse y.reverse false
    (isDigits_reverse.mpr hx) (isDigits_reverse.mpr hy) (by simpa using hlen)
    (by simpa [strVal] using hle)
  refine ⟨r.reverse, by simp [subtractStrings, hr, Except.map], isDigits_reverse.mpr hrd,
    by simpa using hrl, ?_⟩
  simpa [strVal] using hrv

/-- `SUBTRACT` under its precondition returns the canonical non-negative value of the
difference of the magnitudes. -/
theorem SUBTRACT_eq (a b : BigInt) (ha : Inv a) (hb : Inv b)
    (hle : strVal b.value ≤ strVal a.value) :
    a.SUBTRACT b = .ok (BigInt.ofNat (strVal a.value - strVal b.value)) := by
  obtain ⟨r, hr, hrd, hrl, hrv⟩ := subtractStrings_spec a.value b.value ha.1.2 hb.1.2
    (normalized_length_le (inv_normalized hb) (inv_normalized ha) hle) hle
  have hne : r ≠ [] := by
    intro h
    rw [h] at hrl
    exact ha.1.1 (List.length_eq_zero.mp hrl.symm)
  have hv : strVal r = strVal a.value - strVal b.value := by omega
  simp [BigInt.SUBTRACT, hr, Except.map, ofString_digits hne hrd, hv]

/-! ## Schoolbook multiplication -/

theorem getD_set_eq (l : List Nat) (k v : Nat) (h : k < l.length) :
    (l.set k v).getD k 0 = v := by
  induction l generalizing k with
  | nil => simp at h
  | cons c cs ih =>
    cases k with
    | zero => simp
    | succ k => simpa using ih k (by simpa using h)

theorem getD_set_ne (l : List Nat) (k p v : Nat) (h : p ≠ k) :
    (l.set k v).getD p 0 = l.getD p 0 := by
  induction l generalizing k p with
  | nil => simp
  | cons c cs ih =>
    cases k with
    | zero =>
      cases p with
      | zero => exact absurd rfl h
      | succ p => simp
    | succ k =>
      cases p with
      | zero => simp
      | succ p => simpa using ih k p (by omega)

theorem cellsVal_set (l : List Nat) (k v : Nat) (h : k < l.length) :
    cellsVal (l.set k v) + l.getD k 0 * 10 ^ (l.length - 1 - k) =
      cellsVal l + v * 10 ^ (l.length - 1 - k) := by
  induction l generalizing k with
  | nil => simp at h
  | cons c cs ih =>
    cases k with
    | zero =>
      simp only [List.set_cons_zero, cellsVal, List.getD_cons_zero, List.length_cons,
        Nat.add_sub_cancel, Nat.sub_zero]
      omega
    | succ k =>
      have hk : k < cs.length := by simpa using h
      have := ih k hk
      have he : (c :: cs).length - 1 - (k + 1) = cs.length - 1 - k := by
        simp only [List.length_cons]; omega
      simp only [List.set_cons_succ, cellsVal, List.getD_cons_succ, he, List.length_set]
      omega

theorem cellsVal_replicate_zero (n : Nat) : cellsVal (List.replicate n 0) = 0 := by
  induction n with
  | zero => rfl
  | succ n ih => simp [List.replicate_succ, cellsVal, ih]

theorem getD_replicate_zero (n p : Nat) : (List.replicate n 0).getD p 0 = 0 := by
  induction n generalizing p with
  | zero => simp
  | succ n ih =>
    cases p with
    | zero => simp [List.replicate_succ]
    | succ p => simp [List.replicate_succ]

theorem mulStep_length (num1 num2 : List Char) (i j : Nat) (res : List Nat) :
    (mulStep num1 num2 i j res).length = res.length := by
  simp [mulStep]

theorem mulStep_getD_other (num1 num2 : List Char) (i j p : Nat) (res : List Nat)
    (h1 : p ≠ i + j) (h2 : p ≠ i + j + 1) :
    (mulStep num1 num2 i j res).getD p 0 = res.getD p 0 := by
  simp only [mulStep]
  rw [getD_set_ne _ _ _ _ h1, getD_set_ne _ _ _ _ h2]

theorem mulStep_getD_low (num1 num2 : List Char) (i j : Nat) (res : List Nat)
    (h : i + j + 1 < res.length) :
    (mulStep num1 num2 i j res).getD (i + j + 1) 0 =
      (digitVal (num1.getD i '0') * digitVal (num2.getD j '0') + res.getD (i + j + 1) 0) % 10 := by
  simp only [mulStep]
  rw [getD_set_ne _ _ _ _ (by omega), getD_set_eq _ _ _ h]

theorem mulStep_getD_high (num1 num2 : List Char) (i j : Nat) (res : List Nat)
    (h : i + j + 1 < res.length) :
    (mulStep num1 num2 i j res).getD (i + j) 0 = res.getD (i + j) 0 +
      (digitVal (num1.getD i '0') * digitVal (num2.getD j '0') + res.getD (i + j + 1) 0) / 10 := by
  simp only [mulStep]
  rw [getD_set_eq _ _ _ (by simp; omega), getD_set_ne _ _ _ _ (by omega)]

theorem mulStep_cellsVal (num1 num2 : List Char) (i j : Nat) (res : List Nat)
    (h : i + j + 1 < res.length) :
    cellsVal (mulStep num1 num2 i j res) = cellsVal res +
      digitVal (num1.getD i '0') * digitVal (num2.getD j '0')
        * 10 ^ (res.length - 1 - (i + j + 1)) := by
  simp only [mulStep]
  generalize digitVal (num1.getD i '0') * digitVal (num2.getD j '0') = mul
  have e1 := cellsVal_set res (i + j + 1) ((mul + res.getD (i + j + 1) 0) % 10) h
  have e2 := cellsVal_set (res.set (i + j + 1) ((mul + res.getD (i + j + 1) 0) % 10)) (i + j)
    ((res.set (i + j + 1) ((mul + res.getD (i + j + 1) 0) % 10)).getD (i + j) 0
      + (mul + res.getD (i + j + 1) 0) / 10) (by simp; omega)
  simp only [List.length_set] at e2
  have hp : 10 ^ (res.length - 1 - (i + j)) = 10 * 10 ^ (res.length - 1 - (i + j + 1)) := by
    rw [← pow_succ']
    congr 1
    omega
  rw [hp] at e2
  generalize 10 ^ (res.length - 1 - (i + j + 1)) = P at *
  generalize res.getD (i + j + 1) 0 = old at *
  generalize (res.set (i + j + 1) ((mul + old) % 10)).getD (i + j) 0 = o at *
  generalize cellsVal (res.set (i + j + 1) ((mul + old) % 10)) = cv1 at *
  generalize cellsVal ((res.set (i + j + 1) ((mul + old) % 10)).set (i + j)
    (o + (mul + old) / 10)) = cv2 at *
  have hs : (mul + old) % 10 + 10 * ((mul + old) / 10) = mul + old := Nat.mod_add_div _ _
  have hs2 : (mul + old) % 10 * P + (mul + old) / 10 * (10 * P) = mul * P + old * P := by
    calc (mul + old) % 10 * P + (mul + old) / 10 * (10 * P)
        = ((mul + old) % 10 + 10 * ((mul + old) / 10)) * P := by ring
      _ = mul * P + old * P := by rw [hs]; ring
  have e2' : cv2 + o * (10 * P) = cv1 + o * (10 * P) + (mul + old) / 10 * (10 * P) := by
    rw [e2]; ring
  omega

theorem strVal_take_succ (s : List Char) (k : Nat) (h : k < s.length) :
    strVal (s.take (k + 1)) = 10 * strVal (s.take k) + digitVal (s.getD k '0') := by
  rw [List.take_succ, List.getElem?_eq_getElem h]
  simp only [Option.toList_some, strVal_snoc]
  rw [List.getD_eq_getElem _ _ h]

theorem getD_isDigit {s : List Char} (hs : IsDigits s) (k : Nat) : digitVal (s.getD k '0') ≤ 9 := by
  by_cases h : k < s.length
  · rw [List.getD_eq_getElem _ _ h]
    have := digitVal_lt (hs _ (List.getElem_mem h))
    omega
  · rw [List.getD_eq_default _ _ (by omega)]
    decide

/-- The inner loop of `multiplyStrings`, started in row `i` with `k` columns left: the cells
stay below 100, end below 10, and the buffer gains `num1[i] * num2[0..k)` at its place. -/
theorem mulInner_inv (num1 num2 : List Char) (h1 : IsDigits num1) (h2 : IsDigits num2)
    (i : Nat) (hi : i < num1.length) (k : Nat) (hk : k ≤ num2.length) (res : List Nat)
    (hlen : res.length = num1.length + num2.length)
    (hsmall : ∀ p, p ≠ i + k → res.getD p 0 ≤ 9)
    (hhot : res.getD (i + k) 0 ≤ 18)
    (hend : k = 0 → res.getD i 0 ≤ 9)
    (hzero : ∀ p, p ≤ i → p < i + k → res.getD p 0 = 0) :
    (mulInner num1 num2 i k res).length = num1.length + num2.length ∧
    (∀ p, (mulInner num1 num2 i k res).getD p 0 ≤ 9) ∧
    (∀ p, p < i → (mulInner num1 num2 i k res).getD p 0 = 0) ∧
    cellsVal (mulInner num1 num2 i k res) = cellsVal res +
      digitVal (num1.getD i '0') * 10 ^ (num1.length - 1 - i)
        * (strVal (num2.take k) * 10 ^ (num2.length - k)) := by
  induction k generalizing res with
  | zero =>
    refine ⟨hlen, ?_, ?_, ?_⟩
    · intro p
      by_cases hp : p = i
      · subst hp; exact hend rfl
      · exact hsmall p (by simpa using hp)
    · intro p hp
      exact hzero p (by omega) (by omega)
    · simp [mulInner, strVal_nil]
  | succ k ih =>
    have hkl : k < num2.length := hk
    have hpos : i + k + 1 < res.length := by omega
    have hd1 := getD_isDigit h1 i
    have hd2 := getD_isDigit h2 k
    have hmul : digitVal (num1.getD i '0') * digitVal (num2.getD k '0') ≤ 81 := by
      calc digitVal (num1.getD i '0') * digitVal (num2.getD k '0') ≤ 9 * 9 :=
            Nat.mul_le_mul hd1 hd2
        _ = 81 := by norm_num
    have hlow := mulStep_getD_low num1 num2 i k res hpos
    have hhigh := mulStep_getD_high num1 num2 i k res hpos
    have hother := fun p => mulStep_getD_other num1 num2 i k p res
    have hval := mulStep_cellsVal num1 num2 i k res hpos
    have hik : res.getD (i + k) 0 ≤ 9 := hsmall (i + k) (by omega)
    have hhot' : res.getD (i + k + 1) 0 ≤ 18 := hhot
    obtain ⟨r1, r2, r3, r4⟩ := ih (by omega) (mulStep num1 num2 i k res)
      (by rw [mulStep_length]; exact hlen)
      (by
        intro p hp
        by_cases hp1 : p = i + k + 1
        · rw [hp1, hlow]; omega
        · rw [hother p hp hp1]; exact hsmall p (by omega))
      (by rw [hhigh]; omega)
      (by
        intro hk0
        have hz : res.getD (i + k) 0 = 0 := by
          rw [hk0]; exact hzero i le_rfl (by omega)
        have he : (mulStep num1 num2 i k res).getD i 0
            = (mulStep num1 num2 i k res).getD (i + k) 0 := by
          congr 1; omega
        rw [he, hhigh, hz]; omega)
      (by
        intro p hp1 hp2
        rw [hother p (by omega) (by omega)]
        exact hzero p hp1 (by omega))
    refine ⟨r1, r2, r3, ?_⟩
    show cellsVal (mulInner num1 num2 i k (mulStep num1 num2 i k res)) = _
    rw [r4, hval, strVal_take_succ num2 k hkl]
    have e1 : res.length - 1 - (i + k + 1) = (num1.length - 1 - i) + (num2.length - (k + 1)) := by
      omega
    have e2 : num2.length - k = (num2.length - (k + 1)) + 1 := by omega
    rw [e1, e2, pow_add, pow_succ]
    ring

/-- The outer loop of `multiplyStrings` with `k` rows left: every cell ends below 10 and the
buffer gains `num1[0..k) * num2` at its place. -/
theorem mulOuter_inv (num1 num2 : List Char) (h1 : IsDigits num1) (h2 : IsDigits num2)
    (k : Nat) (hk : k ≤ num1.length) (res : List Nat)
    (hlen : res.length = num1.length + num2.length)
    (hsmall : ∀ p, res.getD p 0 ≤ 9)
    (hzero : ∀ p, p < k → res.getD p 0 = 0) :
    (mulOuter num1 num2 k res).length = num1.length + num2.length ∧
    (∀ p, (mulOuter num1 num2 k res).getD p 0 ≤ 9) ∧
    cellsVal (mulOuter num1 num2 k res) = cellsVal res +
      strVal (num1.take k) * 10 ^ (num1.length - k) * strVal num2 := by
  induction k generalizing res with
  | zero => exact ⟨hlen, hsmall, by simp [mulOuter, strVal_nil]⟩
  | succ i ih =>
    have hi : i < num1.length := hk
    obtain ⟨r1, r2, r3, r4⟩ := mulInner_inv num1 num2 h1 h2 i hi num2.length le_rfl res hlen
      (fun p _ => hsmall p) (le_trans (hsmall _) (by norm_num)) (fun _ => hsmall i)
      (fun p hp _ => hzero p (by omega))
    obtain ⟨q1, q2, q3⟩ := ih (by omega) (mulInner num1 num2 i num2.length res) r1 r2 r3
    refine ⟨q1, q2, ?_⟩
    show cellsVal (mulOuter num1 num2 i (mulInner num1 num2 i num2.length res)) = _
    rw [q3, r4, strVal_take_succ num1 i hi]
    have e1 : num1.length - i = (num1.length - (i + 1)) + 1 := by omega
    have e2 : num1.length - 1 - i = num1.length - (i + 1) := by omega
    rw [e1, e2, pow_succ]
    simp only [List.take_length, Nat.sub_self, pow_zero, Nat.mul_one]
    ring

theorem cellsToStr_acc (cells : List Nat) (acc : List Char) (h : acc ≠ []) :
    cellsToStr cells acc = acc ++ cells.map digitChar := by
  induction cells generalizing acc with
  | nil => simp [cellsToStr]
  | cons c cs ih =>
    have he : acc.isEmpty = false := by
      cases acc with
      | nil => exact absurd rfl h
      | cons a as => rfl
    simp only [cellsToStr, he, Bool.false_and, Bool.false_eq_true, if_false]
    rw [ih _ (by simp)]
    simp

theorem cellsToStr_nil (cells : List Nat) :
    cellsToStr cells [] = (cells.dropWhile (fun c => c == 0)).map digitChar := by
  induction cells with
  | nil => rfl
  | cons c cs ih =>
    by_cases hc : c = 0
    · subst hc
      simpa [cellsToStr, List.dropWhile_cons] using ih
    · simp only [cellsToStr, List.isEmpty_nil, Bool.true_and, beq_iff_eq, hc, if_false,
        List.nil_append, List.dropWhile_cons, Bool.false_eq_true]
      rw [cellsToStr_acc _ _ (by simp)]
      simp

theorem cellsVal_dropWhile (cells : List Nat) :
    cellsVal (cells.dropWhile (fun c => c == 0)) = cellsVal cells := by
  induction cells with
  | nil => rfl
  | cons c cs ih =>
    by_cases hc : c = 0
    · subst hc
      simpa [List.dropWhile_cons, cellsVal] using ih
    · simp [List.dropWhile_cons, hc]

theorem strVal_map_digitChar (cells : List Nat) (h : ∀ c ∈ cells, c ≤ 9) :
    strVal (cells.map digitChar) = cellsVal cells ∧ IsDigits (cells.map digitChar) := by
  induction cells with
  | nil => exact ⟨rfl, isDigits_nil⟩
  | cons c cs ih =>
    have hc : c < 10 := by
      have := h c (by simp)
      omega
    obtain ⟨i1, i2⟩ := ih (fun d hd => h d (by simp [hd]))
    refine ⟨?_, ?_⟩
    · simp only [List.map_cons, strVal_cons, cellsVal, digitVal_digitChar hc, i1,
        List.length_map]
    · simp only [List.map_cons]
      exact isDigits_cons.mpr ⟨isDigit_digitChar hc, i2⟩

theorem mem_of_getD_le {cells : List Nat} (h : ∀ p, cells.getD p 0 ≤ 9) :
    ∀ c ∈ cells, c ≤ 9 := by
  intro c hc
  obtain ⟨n, hn, rfl⟩ := List.getElem_of_mem hc
  have := h n
  rwa [List.getD_eq_getElem _ _ hn] at this

theorem dropWhile_zero_head (cells : List Nat) (c : Nat) (rest : List Nat)
    (h : cells.dropWhile (fun c => c == 0) = c :: rest) : c ≠ 0 := by
  induction cells with
  | nil => simp at h
  | cons d ds ih =>
    by_cases hd : d = 0
    · subst hd
      exact ih (by simpa [List.dropWhile_cons] using h)
    · simp only [List.dropWhile_cons, beq_iff_eq, hd, if_false, List.cons.injEq] at h
      rw [← h.1]; exact hd

/-- `multiplyStrings` on digit strings returns the canonical decimal representation of the
product of the two numbers. -/
theorem multiplyStrings_eq (x y : List Char) (hx : IsDigits x) (hy : IsDigits y) :
    multiplyStrings x y = toDecimal (strVal x * strVal y) := by
  obtain ⟨m1, m2, m3⟩ := mulOuter_inv x y hx hy x.length le_rfl
    (List.replicate (x.length + y.length) 0) (by simp)
    (fun p => by rw [getD_replicate_zero]; omega)
    (fun p _ => getD_replicate_zero _ _)
  simp only [List.take_length, Nat.sub_self, pow_zero, Nat.mul_one, cellsVal_replicate_zero,
    Nat.zero_add] at m3
  have hcells := mem_of_getD_le m2
  have hdrop : ∀ c ∈ (mulOuter x y x.length (List.replicate (x.length + y.length) 0)).dropWhile
      (fun c => c == 0), c ≤ 9 := fun c hc => hcells c ((List.dropWhile_suffix _).subset hc)
  obtain ⟨s1, s2⟩ := strVal_map_digitChar _ hdrop
  rw [cellsVal_dropWhile, m3] at s1
  have hhead := fun c rest => dropWhile_zero_head
    (mulOuter x y x.length (List.replicate (x.length + y.length) 0)) c rest
  unfold multiplyStrings
  simp only [cellsToStr_nil]
  generalize (mulOuter x y x.length (List.replicate (x.length + y.length) 0)).dropWhile
      (fun c => c == 0) = cells at *
  cases cells with
  | nil =>
    simp only [List.map_nil, strVal_nil] at s1
    rw [← s1]; rfl
  | cons c rest =>
    have hc0 : c ≠ 0 := hhead c rest rfl
    have hc9 : c < 10 := by
      have := hdrop c (by simp)
      omega
    have hnorm : Normalized ((c :: rest).map digitChar) := by
      refine ⟨by simp, s2, ?_⟩
      rw [leading_zero_iff]
      intro r hr
      simp only [List.map_cons, List.cons.injEq] at hr
      have := congrArg digitVal hr.1
      rw [digitVal_digitChar hc9] at this
      exact absurd this hc0
    rw [← s1, toDecimal_strVal hnorm]
    simp

/-- `MULTIPLY` returns the value denoting the product of the integers its operands denote. -/
theorem MULTIPLY_eq (a b : BigInt) (ha : Inv a) (hb : Inv b) :
    a.MULTIPLY b = BigInt.ofInteger (a.toInt * b.toInt) := by
  have hza := value_eq_zero_iff ha
  have hzb := value_eq_zero_iff hb
  unfold BigInt.MULTIPLY
  split_ifs with h0
  · have hz : a.toInt * b.toInt = 0 := by
      rcases h0 with h | h
      · have := hza.mp h
        simp [BigInt.toInt, this]
      · have := hzb.mp h
        simp [BigInt.toInt, this]
    rw [hz]; rfl
  · have hna : strVal a.value ≠ 0 := fun h => h0 (Or.inl (hza.mpr h))
    have hnb : strVal b.value ≠ 0 := fun h => h0 (Or.inr (hzb.mpr h))
    have hn := toDecimal_normalized (strVal a.value * strVal b.value)
    simp only [multiplyStrings_eq _ _ ha.1.2 hb.1.2, ofString_signed hn.1 hn.2.1,
      strVal_toDecimal, BigInt.ofInteger]
    have hprod : strVal a.value * strVal b.value ≠ 0 := Nat.mul_ne_zero hna hnb
    have hpa : (0 : Int) < strVal a.value := by omega
    have hpb : (0 : Int) < strVal b.value := by omega
    obtain ⟨av, ap⟩ := a
    obtain ⟨bv, bp⟩ := b
    simp only at hpa hpb hprod ⊢
    cases ap <;> cases bp <;>
      simp [BigInt.toInt, Int.natAbs_mul, hprod, Int.natAbs_neg] <;> nlinarith

/-! ## Comparison -/

theorem strGe_eq {s t : List Char} (hs : IsDigits s) (ht : IsDigits t)
    (hlen : s.length = t.length) : strGe s t = decide (strVal t ≤ strVal s) := by
  induction s generalizing t with
  | nil =>
    cases t with
    | nil => rfl
    | cons b bs => simp at hlen
  | cons a as ih =>
    cases t with
    | nil => simp at hlen
    | cons b bs =>
      have hl : as.length = bs.length := by simpa using hlen
      obtain ⟨ha, has⟩ := isDigits_cons.mp hs
      obtain ⟨hb, hbs⟩ := isDigits_cons.mp ht
      have h1 := strVal_lt has
      have h2 := strVal_lt hbs
      rw [hl] at h1
      have ea : digitVal a = a.toNat - 48 := rfl
      have eb : digitVal b = b.toNat - 48 := rfl
      obtain ⟨ha1, ha2⟩ := ha
      obtain ⟨hb1, hb2⟩ := hb
      simp only [strGe, strVal_cons, hl]
      generalize 10 ^ bs.length = P at *
      by_cases c1 : b.toNat < a.toNat
      · simp only [c1, if_true]
        symm
        rw [decide_eq_true_iff]
        have : (digitVal b + 1) * P ≤ digitVal a * P := Nat.mul_le_mul_right _ (by omega)
        rw [Nat.add_mul] at this
        omega
      · by_cases c2 : a.toNat < b.toNat
        · simp only [c1, c2, if_true, if_false]
          symm
          rw [decide_eq_false_iff_not]
          have : (digitVal a + 1) * P ≤ digitVal b * P := Nat.mul_le_mul_right _ (by omega)
          rw [Nat.add_mul] at this
          omega
        · have hab : digitVal a = digitVal b := by omega
          simp only [c1, c2, if_false, ih has hbs hl, hab]
          congr 1
          apply propext
          omega

/-- On non-negative values satisfying the invariants `operator>=` is the numeric order. -/
theorem ge_eq (a b : BigInt) (ha : Inv a) (hb : Inv b) (pa : a.isPositive = true)
    (pb : b.isPositive = true) : a.ge b = decide (strVal b.value ≤ strVal a.value) := by
  unfold BigInt.ge
  simp only [pa, pb, bne_self_eq_false, Bool.false_eq_true, if_false]
  split_ifs with hlen
  · congr 1
    apply propext
    constructor
    · intro h
      by_contra hc
      have := normalized_length_le (inv_normalized ha) (inv_normalized hb) (by omega)
      omega
    · intro h
      have := normalized_length_le (inv_normalized hb) (inv_normalized ha) h
      omega
  · exact strGe_eq ha.1.2 hb.1.2 (by simpa using hlen)

/-! ## Division -/

/-- The inner loop of `divideStrings` returns the remainder and the count once the fuel
exceeds the count; it fails only for lack of fuel. -/
theorem divLoop_char (divisor : List Char) (hn : Normalized divisor) (h0 : strVal divisor ≠ 0)
    (fuel t count : Nat) :
    divLoop fuel (BigInt.ofNat t) divisor count =
      if t / strVal divisor < fuel then
        .ok (BigInt.ofNat (t % strVal divisor), count + t / strVal divisor)
      else .error .fuelExhausted := by
  have hdiv : BigInt.ofString divisor = BigInt.ofNat (strVal divisor) :=
    ofString_digits hn.1 hn.2.1
  have hpos : 0 < strVal divisor := Nat.pos_of_ne_zero h0
  induction fuel generalizing t count with
  | zero => simp [divLoop]
  | succ fuel ih =>
    unfold divLoop
    rw [hdiv, ge_eq _ _ (inv_ofNat _) (inv_ofNat _) rfl rfl]
    simp only [value_ofNat]
    by_cases hle : strVal divisor ≤ t
    · simp only [hle, decide_True, if_true]
      rw [SUBTRACT_eq _ _ (inv_ofNat _) (inv_ofNat _) (by simpa [value_ofNat] using hle)]
      simp only [value_ofNat]
      have e1 : t / strVal divisor = (t - strVal divisor) / strVal divisor + 1 :=
        Nat.div_eq_sub_div hpos hle
      have e2 : t % strVal divisor = (t - strVal divisor) % strVal divisor :=
        Nat.mod_eq_sub_mod hle
      show divLoop fuel (BigInt.ofNat (t - strVal divisor)) divisor (count + 1) = _
      rw [ih (t - strVal divisor) (count + 1), e1, e2]
      by_cases hf : (t - strVal divisor) / strVal divisor < fuel
      · rw [if_pos hf, if_pos (by omega)]
        congr 2
        omega
      · rw [if_neg hf, if_neg (by omega)]
    · simp only [hle, decide_False, Bool.false_eq_true, if_false]
      have hlt : t < strVal divisor := by omega
      rw [Nat.mod_eq_of_lt hlt, Nat.div_eq_of_lt hlt, if_pos (by omega)]
      rfl

theorem divLoop_spec (divisor : List Char) (hn : Normalized divisor) (h0 : strVal divisor ≠ 0)
    (fuel t count : Nat) (hf : t / strVal divisor < fuel) :
    divLoop fuel (BigInt.ofNat t) divisor count =
      .ok (BigInt.ofNat (t % strVal divisor), count + t / strVal divisor) := by
  rw [divLoop_char divisor hn h0, if_pos hf]

theorem quotDigits_length (d r : Nat) (ds : List Char) :
    (quotDigits d r ds).length = ds.length := by
  induction ds generalizing r with
  | nil => rfl
  | cons c cs ih => simp [quotDigits, ih]

theorem quot_digit_lt {d r c : Nat} (hr : r < d) (hc : c < 10) : (r + c) / d < 10 := by
  apply Nat.div_lt_of_lt_mul
  omega

/-- Every count the inner loop of `divideStrings` reaches is at most 9. -/
theorem quotDigits_digits (d r : Nat) (ds : List Char) (hr : r < d) (hds : IsDigits ds) :
    IsDigits (quotDigits d r ds) := by
  induction ds generalizing r with
  | nil => exact isDigits_nil
  | cons c cs ih =>
    obtain ⟨hc, hcs⟩ := isDigits_cons.mp hds
    simp only [quotDigits]
    exact isDigits_cons.mpr ⟨isDigit_digitChar (quot_digit_lt hr (digitVal_lt hc)),
      ih _ (Nat.mod_lt _ (by omega)) hcs⟩

/-- The number the quotient digits denote, times the divisor, does not exceed the dividend
(plus the weight of the remainder carried in). -/
theorem quotDigits_bound (d r : Nat) (ds : List Char) (hr : r < d) (hds : IsDigits ds) :
    strVal (quotDigits d r ds) * d ≤ strVal ds + r * 10 ^ ds.length := by
  induction ds generalizing r with
  | nil => simp [quotDigits, strVal_nil]
  | cons c cs ih =>
    obtain ⟨hc, hcs⟩ := isDigits_cons.mp hds
    have hq := quot_digit_lt hr (digitVal_lt hc)
    have ih' := ih ((r + digitVal c) % d) (Nat.mod_lt _ (by omega)) hcs
    have hdm := Nat.div_add_mod (r + digitVal c) d
    simp only [quotDigits, strVal_cons, digitVal_digitChar hq, quotDigits_length,
      List.length_cons, pow_succ]
    generalize (r + digitVal c) / d = q1 at *
    generalize (r + digitVal c) % d = r1 at *
    generalize strVal (quotDigits d r1 cs) = Q at *
    generalize 10 ^ cs.length = P at *
    have e : (q1 * P + Q) * d + r1 * P = (d * q1 + r1) * P + Q * d := by ring
    rw [hdm] at e
    have e3 : (r + digitVal c) * P = r * P + digitVal c * P := by ring
    have e4 : r * (P * 10) = 10 * (r * P) := by ring
    have : 0 ≤ r1 * P := Nat.zero_le _
    have : 0 ≤ r * P := Nat.zero_le _
    omega

theorem ofString_single {c : Char} (hc : IsDigit c) :
    BigInt.ofString [c] = BigInt.ofNat (digitVal c) := by
  rw [ofString_digits (by simp) (isDigits_cons.mpr ⟨hc, isDigits_nil⟩), strVal_single]

theorem toDecimal_ne_nil (n : Nat) : toDecimal n ≠ [] := (toDecimal_normalized n).1

theorem divDigits_spec (divisor : List Char) (hn : Normalized divisor)
    (h0 : strVal divisor ≠ 0) (fuel : Nat) (hf : 10 ≤ fuel) (ds : List Char)
    (hds : IsDigits ds) (r : Nat) (hr : r < strVal divisor) (acc : List Char) :
    divDigits fuel divisor ds (BigInt.ofNat r) acc =
      .ok (acc ++ quotDigits (strVal divisor) r ds) := by
  induction ds generalizing r acc with
  | nil => simp [divDigits, quotDigits]
  | cons c cs ih =>
    obtain ⟨hc, hcs⟩ := isDigits_cons.mp hds
    have hq := quot_digit_lt hr (digitVal_lt hc)
    unfold divDigits
    rw [ofString_single hc, ADD_eq _ _ (toDecimal_ne_nil r)]
    simp only [value_ofNat]
    rw [divLoop_spec divisor hn h0 fuel _ 0 (by omega)]
    simp only [Nat.zero_add]
    show divDigits fuel divisor cs _ _ = _
    rw [ih hcs _ (Nat.mod_lt _ (by omega))]
    simp [quotDigits]

theorem divideStrings_spec (fuel : Nat) (hf : 10 ≤ fuel) (dividend divisor : List Char)
    (hd : IsDigits dividend) (hne : dividend ≠ []) (hn : Normalized divisor)
    (h0 : divisor ≠ ['0']) :
    divideStrings fuel dividend divisor = .ok (quotDigits (strVal divisor) 0 dividend) := by
  have hv : strVal divisor ≠ 0 := fun h => h0 (normalized_eq_zero hn h)
  unfold divideStrings
  rw [if_neg h0]
  have h00 : BigInt.ofString ['0'] = BigInt.ofNat 0 := rfl
  rw [h00, divDigits_spec divisor hn hv fuel hf dividend hd 0 (by omega) []]
  have hl : (quotDigits (strVal divisor) 0 dividend) ≠ [] := by
    intro h
    have := quotDigits_length (strVal divisor) 0 dividend
    rw [h] at this
    exact hne (List.length_eq_zero.mp this.symm)
  cases hq : quotDigits (strVal divisor) 0 dividend with
  | nil => exact absurd hq hl
  | cons q qs => rfl

/-- `DIVIDE` by a non-zero divisor returns, with fuel for ten iterations of the inner loop,
the canonical value of the quotient digits with the sign of the operands combined. -/
theorem DIVIDE_eq (fuel : Nat) (hf : 10 ≤ fuel) (a b : BigInt) (ha : Inv a) (hb : Inv b)
    (h0 : b.value ≠ ['0']) :
    a.DIVIDE fuel b = .ok ⟨toDecimal (strVal (quotDigits (strVal b.value) 0 a.value)),
      (a.isPositive == b.isPositive) ||
        decide (strVal (quotDigits (strVal b.value) 0 a.value) = 0)⟩ := by
  have hv : strVal b.value ≠ 0 := fun h => h0 (normalized_eq_zero (inv_normalized hb) h)
  unfold BigInt.DIVIDE
  rw [if_neg h0, divideStrings_spec fuel hf _ _ ha.1.2 ha.1.1 (inv_normalized hb) h0]
  have hqd := quotDigits_digits (strVal b.value) 0 a.value (by omega) ha.1.2
  have hqn : quotDigits (strVal b.value) 0 a.value ≠ [] := by
    intro h
    have := quotDigits_length (strVal b.value) 0 a.value
    rw [h] at this
    exact ha.1.1 (List.length_eq_zero.mp this.symm)
  show Except.ok (BigInt.ofString _) = _
  rw [ofString_signed hqn hqd]

/-! ## Power -/

theorem inv_MULTIPLY (a b : BigInt) (ha : Inv a) (hb : Inv b) : Inv (a.MULTIPLY b) := by
  rw [MULTIPLY_eq a b ha hb]; exact inv_ofInteger _

theorem toInt_MULTIPLY (a b : BigInt) (ha : Inv a) (hb : Inv b) :
    (a.MULTIPLY b).toInt = a.toInt * b.toInt := by
  rw [MULTIPLY_eq a b ha hb, toInt_ofInteger]

/-- The loop of `POWER` with exponent `n` returns `result * base ^ n` once `n < 2 ^ (fuel - 1)`;
it fails only for lack of fuel. -/
theorem powLoop_char (fuel n : Nat) (base result : BigInt) (hb : Inv base) (hr : Inv result) :
    powLoop fuel (n : Int) base result =
      if n < 2 ^ fuel / 2 then .ok (BigInt.ofInteger (result.toInt * base.toInt ^ n))
      else .error .fuelExhausted := by
  induction fuel generalizing n base result with
  | zero => simp [powLoop]
  | succ k ih =>
    have hk : 2 ^ (k + 1) / 2 = 2 ^ k := by rw [pow_succ]; omega
    rw [hk]
    unfold powLoop
    by_cases hpos : (0 : Int) < (n : Int)
    · rw [if_pos hpos]
      have hdiv : (n : Int) / 2 = ((n / 2 : Nat) : Int) := by norm_cast
      have hiff : n / 2 < 2 ^ k / 2 ↔ n < 2 ^ k := by
        cases k with
        | zero => simp; omega
        | succ j => rw [pow_succ]; omega
      have hbb := inv_MULTIPLY base base hb hb
      rw [hdiv]
      by_cases hodd : (n : Int) % 2 = 1
      · rw [if_pos hodd, ih (n / 2) _ _ hbb (inv_MULTIPLY _ _ hr hb),
          toInt_MULTIPLY _ _ hb hb, toInt_MULTIPLY _ _ hr hb]
        by_cases hlt : n < 2 ^ k
        · rw [if_pos (hiff.mpr hlt), if_pos hlt]
          have hn2 : n = 2 * (n / 2) + 1 := by omega
          congr 2
          conv_rhs => rw [hn2]
          rw [pow_succ, pow_mul]
          ring
        · rw [if_neg (fun h => hlt (hiff.mp h)), if_neg hlt]
      · rw [if_neg hodd, ih (n / 2) _ _ hbb hr, toInt_MULTIPLY _ _ hb hb]
        by_cases hlt : n < 2 ^ k
        · rw [if_pos (hiff.mpr hlt), if_pos hlt]
          have hn2 : n = 2 * (n / 2) := by omega
          congr 2
          conv_rhs => rw [hn2]
          rw [pow_mul]
          ring
        · rw [if_neg (fun h => hlt (hiff.mp h)), if_neg hlt]
    · rw [if_neg hpos]
      have h0 : n = 0 := by omega
      subst h0
      have : (0 : Nat) < 2 ^ k := Nat.pos_pow_of_pos _ (by norm_num)
      simp [ofInteger_toInt hr]

theorem powLoop_spec (k n : Nat) (hn : n < 2 ^ k) (base result : BigInt) (hb : Inv base)
    (hr : Inv result) :
    powLoop (k + 1) (n : Int) base result =
      .ok (BigInt.ofInteger (result.toInt * base.toInt ^ n)) := by
  have hk : 2 ^ (k + 1) / 2 = 2 ^ k := by rw [pow_succ]; omega
  rw [powLoop_char (k + 1) n base result hb hr, hk, if_pos hn]

theorem ofString_one : BigInt.ofString ['1'] = BigInt.ofInteger 1 := by decide

/-- `POWER` with a non-negative exponent below `2 ^ k` and `k + 1` iterations allowed
returns the value denoting the power of the integer. -/
theorem POWER_eq (k : Nat) (a : BigInt) (ha : Inv a) (e : Int) (h0 : 0 ≤ e) (hk : e < 2 ^ k) :
    a.POWER (k + 1) e = .ok (BigInt.ofInteger (a.toInt ^ e.toNat)) := by
  obtain ⟨n, rfl⟩ := Int.eq_ofNat_of_zero_le h0
  have hn : n < 2 ^ k := by exact_mod_cast hk
  unfold BigInt.POWER
  rw [if_neg (by omega)]
  split_ifs with hz
  · have : n = 0 := by omega
    subst this
    simp [ofString_one]
  · rw [powLoop_spec k n hn _ _ ha (by rw [ofString_one]; exact inv_ofInteger 1),
      ofString_one, toInt_ofInteger]
    simp

/-! ## Factorial -/

theorem ofNat_MULTIPLY (m n : Nat) :
    (BigInt.ofNat m).MULTIPLY (BigInt.ofNat n) = BigInt.ofNat (m * n) := by
  rw [MULTIPLY_eq _ _ (inv_ofNat m) (inv_ofNat n), ofNat_eq_ofInteger, ofNat_eq_ofInteger,
    toInt_ofInteger, toInt_ofInteger, ofNat_eq_ofInteger]
  norm_cast

theorem ofNat_ADD (m n : Nat) :
    (BigInt.ofNat m).ADD (BigInt.ofNat n) = BigInt.ofNat (m + n) := by
  rw [ADD_eq _ _ (toDecimal_ne_nil m), value_ofNat, value_ofNat]

theorem ofString_one_ofNat : BigInt.ofString ['1'] = BigInt.ofNat 1 := by decide

/-- The loop of `FACTORIAL` with the counter at `c` and the accumulator at `(c - 1)!`
reaches the target `n` within `n - c + 1` iterations and returns `n!`; it fails only for lack
of fuel. -/
theorem factLoop_char (n fuel c : Nat) (hc : 1 ≤ c) (hcn : c ≤ n) :
    factLoop fuel (toDecimal n) (BigInt.ofNat (c - 1).factorial) (BigInt.ofNat c) =
      if n - c < fuel then .ok (BigInt.ofNat n.factorial) else .error .fuelExhausted := by
  induction fuel generalizing c with
  | zero => simp [factLoop]
  | succ fuel ih =>
    unfold factLoop
    have hmul : (BigInt.ofNat (c - 1).factorial).MULTIPLY (BigInt.ofNat c)
        = BigInt.ofNat c.factorial := by
      rw [ofNat_MULTIPLY]
      obtain ⟨m, rfl⟩ : ∃ m, c = m + 1 := ⟨c - 1, by omega⟩
      rw [Nat.add_sub_cancel, Nat.factorial_succ, Nat.mul_comm]
    rw [hmul, ofString_one_ofNat, ofNat_ADD]
    by_cases heq : c = n
    · subst heq
      simp [BigInt.ofNat]
    · have hne : (BigInt.ofNat c).value ≠ toDecimal n := fun h => heq (toDecimal_inj h)
      rw [if_pos hne]
      have := ih (c + 1) (by omega) (by omega)
      simp only [Nat.add_sub_cancel] at this
      rw [this]
      by_cases hf : n - (c + 1) < fuel
      · rw [if_pos hf, if_pos (by omega)]
      · rw [if_neg hf, if_neg (by omega)]

theorem factLoop_spec (n fuel c : Nat) (hc : 1 ≤ c) (hcn : c ≤ n) (hf : n - c < fuel) :
    factLoop fuel (toDecimal n) (BigInt.ofNat (c - 1).factorial) (BigInt.ofNat c) =
      .ok (BigInt.ofNat n.factorial) := by
  rw [factLoop_char n fuel c hc hcn, if_pos hf]

/-- `FACTORIAL` of a value satisfying the invariants returns the factorial of its
magnitude, once the fuel reaches the magnitude. -/
theorem FACTORIAL_eq (fuel : Nat) (a : BigInt) (ha : Inv a) (hf : strVal a.value ≤ fuel) :
    a.FACTORIAL fuel = .ok (BigInt.ofNat (strVal a.value).factorial) := by
  unfold BigInt.FACTORIAL
  split_ifs with h0
  · rw [h0]
    exact congrArg Except.ok (by decide)
  · have hv : strVal a.value ≠ 0 := fun h => h0 ((value_eq_zero_iff ha).mpr h)
    have := factLoop_spec (strVal a.value) fuel 1 le_rfl (by omega) (by omega)
    rw [← inv_value ha] at this
    rw [ofString_one_ofNat]
    simpa using this

/-! ## Failures other than lack of fuel -/

theorem divDigits_cases (divisor : List Char) (hn : Normalized divisor)
    (h0 : strVal divisor ≠ 0) (fuel : Nat) (ds : List Char)
    (hds : IsDigits ds) (r : Nat) (hr : r < strVal divisor) (acc : List Char) :
    divDigits fuel divisor ds (BigInt.ofNat r) acc =
        .ok (acc ++ quotDigits (strVal divisor) r ds) ∨
      divDigits fuel divisor ds (BigInt.ofNat r) acc = .error .fuelExhausted := by
  induction ds generalizing r acc with
  | nil => left; simp [divDigits, quotDigits]
  | cons c cs ih =>
    obtain ⟨hc, hcs⟩ := isDigits_cons.mp hds
    unfold divDigits
    rw [ofString_single hc, ADD_eq _ _ (toDecimal_ne_nil r)]
    simp only [value_ofNat]
    rw [divLoop_char divisor hn h0 fuel _ 0]
    by_cases hf : (r + digitVal c) / strVal divisor < fuel
    · rw [if_pos hf]
      simp only [Nat.zero_add]
      rcases ih hcs ((r + digitVal c) % strVal divisor) (Nat.mod_lt _ (by omega))
        (acc ++ [digitChar ((r + digitVal c) / strVal divisor)]) with h | h
      · left
        show divDigits fuel divisor cs _ _ = _
        rw [h]
        simp [quotDigits]
      · right
        show divDigits fuel divisor cs _ _ = _
        rw [h]
    · rw [if_neg hf]
      right; rfl

theorem quotDigits_ne_nil (d r : Nat) {ds : List Char} (h : ds ≠ []) :
    quotDigits d r ds ≠ [] := by
  intro hq
  have := quotDigits_length d r ds
  rw [hq] at this
  exact h (List.length_eq_zero.mp this.symm)

/-- `DIVIDE` by a non-zero divisor either returns the value of `DIVIDE_eq` or runs out of
fuel; it raises nothing else. -/
theorem DIVIDE_cases (fuel : Nat) (a b : BigInt) (ha : Inv a) (hb : Inv b)
    (h0 : b.value ≠ ['0']) :
    a.DIVIDE fuel b = .ok ⟨toDecimal (strVal (quotDigits (strVal b.value) 0 a.value)),
        (a.isPositive == b.isPositive) ||
          decide (strVal (quotDigits (strVal b.value) 0 a.value) = 0)⟩ ∨
      a.DIVIDE fuel b = .error .fuelExhausted := by
  have hv : strVal b.value ≠ 0 := fun h => h0 (normalized_eq_zero (inv_normalized hb) h)
  have h00 : BigInt.ofString ['0'] = BigInt.ofNat 0 := rfl
  have hqd := quotDigits_digits (strVal b.value) 0 a.value (by omega) ha.1.2
  have hqn := quotDigits_ne_nil (strVal b.value) 0 ha.1.1
  unfold BigInt.DIVIDE divideStrings
  rw [if_neg h0, if_neg h0, h00]
  rcases divDigits_cases b.value (inv_normalized hb) hv fuel a.value ha.1.2 0 (by omega) []
    with h | h
  · left
    rw [h]
    simp only [List.nil_append]
    cases hq : quotDigits (strVal b.value) 0 a.value with
    | nil => exact absurd hq hqn
    | cons q qs =>
      rw [hq] at hqd
      show Except.ok (BigInt.ofString _) = _
      simp only [List.isEmpty_cons, Bool.false_eq_true, if_false]
      rw [ofString_signed (by simp) hqd]
  · right
    rw [h]; rfl

/-- `POWER` with a non-negative exponent either returns the power or runs out of fuel. -/
theorem POWER_cases (fuel : Nat) (a : BigInt) (ha : Inv a) (e : Int) (h0 : 0 ≤ e) :
    a.POWER fuel e = .ok (BigInt.ofInteger (a.toInt ^ e.toNat)) ∨
      a.POWER fuel e = .error .fuelExhausted := by
  obtain ⟨n, rfl⟩ := Int.eq_ofNat_of_zero_le h0
  unfold BigInt.POWER
  rw [if_neg (by omega)]
  split_ifs with hz
  · have : n = 0 := by omega
    subst this
    left
    simp [ofString_one]
  · rw [powLoop_char fuel n _ _ ha (by rw [ofString_one]; exact inv_ofInteger 1),
      ofString_one, toInt_ofInteger]
    split_ifs
    · left; simp
    · right; rfl

/-- `FACTORIAL` either returns the factorial of the magnitude or runs out of fuel. -/
theorem FACTORIAL_cases (fuel : Nat) (a : BigInt) (ha : Inv a) :
    a.FACTORIAL fuel = .ok (BigInt.ofNat (strVal a.value).factorial) ∨
      a.FACTORIAL fuel = .error .fuelExhausted := by
  by_cases hf : strVal a.value ≤ fuel
  · left; exact FACTORIAL_eq fuel a ha hf
  · unfold BigInt.FACTORIAL
    split_ifs with h0
    · rw [h0] at hf
      exact absurd (Nat.zero_le _) hf
    · have hv : strVal a.value ≠ 0 := fun h => h0 ((value_eq_zero_iff ha).mpr h)
      have := factLoop_char (strVal a.value) fuel 1 le_rfl (by omega)
      rw [← inv_value ha] at this
      rw [ofString_one_ofNat]
      simp only [Nat.sub_self, Nat.factorial_zero] at this
      rw [this]
      split_ifs
      · left; rfl
      · right; rfl

/-! ## The shape of the Karatsuba result -/

theorem bind_ok_iff {α β : Type} (x : Except Failure α) (f : α → Except Failure β) (r : β) :
    (x >>= f) = .ok r ↔ ∃ a, x = .ok a ∧ f a = .ok r := by
  cases x with
  | error e => simp [bind, Except.bind]
  | ok a => simp [bind, Except.bind]

/-- One level of `karatsubaMultiply`, with the three products written as calls of
`KARATSUBA_MULTIPLY`. -/
theorem karatsubaMultiply_succ (fuel : Nat) (x y : List Char) :
    karatsubaMultiply (fuel + 1) x y =
      (if max x.length y.length = 1 then .ok (multiplyStrings x y)
      else do
        let x0 ← substrFrom x
          (sizeSub x.length (max x.length y.length / 2 + max x.length y.length % 2))
        let y0 ← substrFrom y
          (sizeSub y.length (max x.length y.length / 2 + max x.length y.length % 2))
        let z2 ← (BigInt.ofString
            (if max x.length y.length / 2 + max x.length y.length % 2 < x.length then
              x.take (x.length - (max x.length y.length / 2 + max x.length y.length % 2))
            else ['0'])).KARATSUBA_MULTIPLY fuel
          (BigInt.ofString
            (if max x.length y.length / 2 + max x.length y.length % 2 < y.length then
              y.take (y.length - (max x.length y.length / 2 + max x.length y.length % 2))
            else ['0']))
        let z0 ← (BigInt.ofString x0).KARATSUBA_MULTIPLY fuel (BigInt.ofString y0)
        let p ← ((BigInt.ofString
            (if max x.length y.length / 2 + max x.length y.length % 2 < x.length then
              x.take (x.length - (max x.length y.length / 2 + max x.length y.length % 2))
            else ['0'])).ADD (BigInt.ofString x0)).KARATSUBA_MULTIPLY fuel
          ((BigInt.ofString
            (if max x.length y.length / 2 + max x.length y.length % 2 < y.length then
              y.take (y.length - (max x.length y.length / 2 + max x.length y.length % 2))
            else ['0'])).ADD (BigInt.ofString y0))
        let q ← p.SUBTRACT z2
        let z1 ← q.SUBTRACT z0
        .ok (addStrings
          (addStrings
            (z2.value ++ List.replicate
              (2 * (max x.length y.length / 2 + max x.length y.length % 2)) '0')
            (z1.value ++ List.replicate
              (max x.length y.length / 2 + max x.length y.length % 2) '0'))
          z0.value)) := rfl

/-- Whatever `karatsubaMultiply` returns on digit strings is a non-empty digit string. -/
theorem karatsubaMultiply_digits (fuel : Nat) (x y r : List Char) (hx : IsDigits x)
    (hy : IsDigits y) (hx0 : x ≠ []) (h : karatsubaMultiply fuel x y = .ok r) :
    r ≠ [] ∧ IsDigits r := by
  cases fuel with
  | zero => simp [karatsubaMultiply] at h
  | succ fuel =>
    rw [karatsubaMultiply_succ] at h
    by_cases h1 : max x.length y.length = 1
    · rw [if_pos h1] at h
      simp only [Except.ok.injEq] at h
      rw [← h, multiplyStrings_eq x y hx hy]
      exact ⟨toDecimal_ne_nil _, (toDecimal_normalized _).2.1⟩
    · rw [if_neg h1] at h
      simp only [bind_ok_iff] at h
      obtain ⟨x0, -, y0, -, z2, -, z0, -, p, -, q, -, z1, -, hres⟩ := h
      simp only [Except.ok.injEq] at hres
      rw [← hres]
      refine ⟨addStrings_ne_nil (Or.inl (addStrings_ne_nil (Or.inl ?_))), isDigits_addStrings _ _⟩
      have hxl : 0 < x.length := List.length_pos.mpr hx0
      have hm : x.length ≤ max x.length y.length := le_max_left _ _
      have hn : 0 < 2 * (max x.length y.length / 2 + max x.length y.length % 2) := by omega
      intro hnil
      have := congrArg List.length hnil
      simp only [List.length_append, List.length_replicate, List.length_nil] at this
      omega

/-- Whatever `KARATSUBA_MULTIPLY` returns on values satisfying I1 satisfies the invariants. -/
theorem inv_KARATSUBA (fuel : Nat) (a b r : BigInt) (ha : I1 a) (hb : I1 b)
    (h : a.KARATSUBA_MULTIPLY fuel b = .ok r) : Inv r := by
  unfold BigInt.KARATSUBA_MULTIPLY at h
  split_ifs at h with h0
  · simp only [Except.ok.injEq] at h
    rw [← h]; decide
  · simp only [bind_ok_iff] at h
    obtain ⟨s, hs, hr⟩ := h
    simp only [Except.ok.injEq] at hr
    obtain ⟨s1, s2⟩ := karatsubaMultiply_digits fuel _ _ s ha.2 hb.2 ha.1 hs
    rw [← hr, ofString_signed s1 s2]
    have hn := toDecimal_normalized (strVal s)
    refine ⟨⟨hn.1, hn.2.1⟩, hn.2.2, ?_⟩
    intro hz
    simp only at hz ⊢
    rw [toDecimal_eq_zero_iff] at hz
    simp [hz]

/-! ## Spellings of zero -/

theorem digitsOf_minus (rest : List Char) : digitsOf ('-' :: rest) = rest := rfl

theorem digitsOf_of_ne {c : Char} (rest : List Char) (h : c ≠ '-') :
    digitsOf (c :: rest) = c :: rest := by
  unfold digitsOf
  split
  · rename_i heq
    simp only [List.cons.injEq] at heq
    exact absurd heq.1 h
  · rfl

theorem ofString_zero_spelling (s : List Char) (h : ValidDecimal s)
    (hz : ∀ c ∈ digitsOf s, c = '0') : BigInt.ofString s = ⟨['0'], true⟩ := by
  obtain ⟨hne, hd⟩ := h
  have hval : strVal (digitsOf s) = 0 := by
    have : digitsOf s = List.replicate (digitsOf s).length '0' :=
      List.eq_replicate_of_mem hz
    rw [this, strVal_replicate_zero]
  cases s with
  | nil => exact absurd rfl hne
  | cons c rest =>
    by_cases hc : c = '-'
    · subst hc
      rw [digitsOf_minus] at hne hd hval
      rw [ofString_minus hne hd, hval]; rfl
    · rw [digitsOf_of_ne rest hc] at hne hd hval
      rw [ofString_digits hne hd, hval]; rfl

/-! ## The claims -/

theorem inv_mk_toDecimal (v : Nat) (sign : Bool) (h : v = 0 → sign = true) :
    Inv ⟨toDecimal v, sign⟩ := by
  have hn := toDecimal_normalized v
  refine ⟨⟨hn.1, hn.2.1⟩, hn.2.2, ?_⟩
  intro hz
  exact h (toDecimal_eq_zero_iff.mp hz)

theorem inv_ofString (s : List Char) (h : ValidDecimal s) : Inv (BigInt.ofString s) := by
  obtain ⟨hne, hd⟩ := h
  cases s with
  | nil => exact absurd rfl hne
  | cons c rest =>
    by_cases hc : c = '-'
    · subst hc
      rw [digitsOf_minus] at hne hd
      rw [ofString_minus hne hd]
      exact inv_mk_toDecimal _ _ (fun h => by simp [h])
    · rw [digitsOf_of_ne rest hc] at hne hd
      rw [ofString_digits hne hd]
      exact inv_ofNat _

theorem natAbs_toInt (b : BigInt) : b.toInt.natAbs = strVal b.value := by
  unfold BigInt.toInt
  split_ifs <;> simp

theorem value_MULTIPLY (a b : BigInt) (ha : Inv a) (hb : Inv b) :
    (a.MULTIPLY b).value = toDecimal (strVal a.value * strVal b.value) := by
  rw [MULTIPLY_eq a b ha hb]
  simp only [BigInt.ofInteger, Int.natAbs_mul, natAbs_toInt]

theorem divideStrings_cases (fuel : Nat) (dividend divisor : List Char)
    (hd : IsDigits dividend) (hne : dividend ≠ []) (hn : Normalized divisor)
    (h0 : divisor ≠ ['0']) :
    divideStrings fuel dividend divisor = .ok (quotDigits (strVal divisor) 0 dividend) ∨
      divideStrings fuel dividend divisor = .error .fuelExhausted := by
  have hv : strVal divisor ≠ 0 := fun h => h0 (normalized_eq_zero hn h)
  have h00 : BigInt.ofString ['0'] = BigInt.ofNat 0 := rfl
  have hqn := quotDigits_ne_nil (strVal divisor) 0 hne
  unfold divideStrings
  rw [if_neg h0, h00]
  rcases divDigits_cases divisor hn hv fuel dividend hd 0 (by omega) [] with h | h
  · left
    rw [h]
    simp only [List.nil_append]
    cases hq : quotDigits (strVal divisor) 0 dividend with
    | nil => exact absurd hq hqn
    | cons q qs => rfl
  · right
    rw [h]; rfl

/-- Claim C2: the invariants I1-I3 hold for `BigInt(s)` for every literal `s` of the form
`-?[0-9]+`, and for all `a`, `b` satisfying them every value returned by `ADD`, `SUBTRACT`
(when `|a| >= |b|`), `MULTIPLY`, `KARATSUBA_MULTIPLY`, `DIVIDE` (for `b` non-zero; every
quotient digit is a digit, that is every count is at most 9), `POWER` (for an exponent
`>= 0`) and `FACTORIAL` satisfies them again.  `ADD` and `MULTIPLY` always return;
`SUBTRACT`, `DIVIDE`, `POWER` and `FACTORIAL` return under the stated conditions, given
fuel. -/
theorem invariants_preserved (a b : BigInt) (ha : Inv a) (hb : Inv b) :
    (∀ s, ValidDecimal s → Inv (BigInt.ofString s)) ∧
    Inv (a.ADD b) ∧
    (strVal b.value ≤ strVal a.value → ∃ r, a.SUBTRACT b = .ok r ∧ Inv r) ∧
    Inv (a.MULTIPLY b) ∧
    (∀ fuel r, a.KARATSUBA_MULTIPLY fuel b = .ok r → Inv r) ∧
    (b.value ≠ ['0'] →
      (∀ fuel q, divideStrings fuel a.value b.value = .ok q → IsDigits q) ∧
      (∀ fuel r, a.DIVIDE fuel b = .ok r → Inv r) ∧
      (∀ fuel, 10 ≤ fuel → ∃ r, a.DIVIDE fuel b = .ok r)) ∧
    (∀ e : Int, 0 ≤ e →
      (∀ fuel r, a.POWER fuel e = .ok r → Inv r) ∧
      (∀ k : Nat, e < 2 ^ k → ∃ r, a.POWER (k + 1) e = .ok r)) ∧
    (∀ fuel r, a.FACTORIAL fuel = .ok r → Inv r) ∧
    (∀ fuel, strVal a.value ≤ fuel → ∃ r, a.FACTORIAL fuel = .ok r) := by
  refine ⟨inv_ofString, ?_, ?_, inv_MULTIPLY a b ha hb, ?_, ?_, ?_, ?_, ?_⟩
  · rw [ADD_eq a b ha.1.1]; exact inv_ofNat _
  · intro hle
    exact ⟨_, SUBTRACT_eq a b ha hb hle, inv_ofNat _⟩
  · intro fuel r h
    exact inv_KARATSUBA fuel a b r ha.1 hb.1 h
  · intro h0
    have hv : strVal b.value ≠ 0 := fun h => h0 (normalized_eq_zero (inv_normalized hb) h)
    refine ⟨?_, ?_, ?_⟩
    · intro fuel q hq
      rcases divideStrings_cases fuel a.value b.value ha.1.2 ha.1.1 (inv_normalized hb) h0
        with h | h
      · rw [h] at hq
        simp only [Except.ok.injEq] at hq
        rw [← hq]
        exact quotDigits_digits _ _ _ (by omega) ha.1.2
      · rw [h] at hq; cases hq
    · intro fuel r hr
      rcases DIVIDE_cases fuel a b ha hb h0 with h | h
      · rw [h] at hr
        simp only [Except.ok.injEq] at hr
        rw [← hr]
        exact inv_mk_toDecimal _ _ (fun h => by simp [h])
      · rw [h] at hr; cases hr
    · intro fuel hf
      exact ⟨_, DIVIDE_eq fuel hf a b ha hb h0⟩
  · intro e he
    refine ⟨?_, ?_⟩
    · intro fuel r hr
      rcases POWER_cases fuel a ha e he with h | h
      · rw [h] at hr
        simp only [Except.ok.injEq] at hr
        rw [← hr]
        exact inv_ofInteger _
      · rw [h] at hr; cases hr
    · intro k hk
      exact ⟨_, POWER_eq k a ha e he hk⟩
  · intro fuel r hr
    rcases FACTORIAL_cases fuel a ha with h | h
    · rw [h] at hr
      simp only [Except.ok.injEq] at hr
      rw [← hr]
      exact inv_ofNat _
    · rw [h] at hr; cases hr
  · intro fuel hf
    exact ⟨_, FACTORIAL_eq fuel a ha hf⟩

/-- Witness for C2 at `a = 1234`, `b = -56`. -/
theorem invariants_preserved_witness :
    Inv ⟨['1', '2', '3', '4'], true⟩ ∧ Inv ⟨['5', '6'], false⟩ ∧
    Inv ((⟨['1', '2', '3', '4'], true⟩ : BigInt).ADD ⟨['5', '6'], false⟩) ∧
    Inv ((⟨['1', '2', '3', '4'], true⟩ : BigInt).MULTIPLY ⟨['5', '6'], false⟩) ∧
    (∃ r, (⟨['1', '2', '3', '4'], true⟩ : BigInt).SUBTRACT ⟨['5', '6'], false⟩ = .ok r ∧
      Inv r) ∧
    (∃ r, (⟨['1', '2', '3', '4'], true⟩ : BigInt).DIVIDE 10 ⟨['5', '6'], false⟩ = .ok r) :=
  have h := invariants_preserved ⟨['1', '2', '3', '4'], true⟩ ⟨['5', '6'], false⟩
    (by decide) (by decide)
  ⟨by decide, by decide, h.2.1, h.2.2.2.1, h.2.2.1 (by decide),
    (h.2.2.2.2.2.1 (by decide)).2.2 10 (by decide)⟩

/-- Claim C3: for all `a`, `b` satisfying the invariants, of any signs, `MULTIPLY(a,b)`
denotes the product of the integers `a` and `b` denote: its magnitude is the canonical
decimal representation of `|a| * |b|`, its sign flag (for non-zero operands) is non-negative
when the operands have the same sign and negative when they differ, and it is exactly
`BigInt("0")` when either operand is zero. -/
theorem MULTIPLY_correct (a b : BigInt) (ha : Inv a) (hb : Inv b) :
    (a.MULTIPLY b).toInt = a.toInt * b.toInt ∧
    Inv (a.MULTIPLY b) ∧
    (a.MULTIPLY b).value = toDecimal (strVal a.value * strVal b.value) ∧
    (a.value ≠ ['0'] → b.value ≠ ['0'] →
      (a.MULTIPLY b).isPositive = (a.isPositive == b.isPositive)) ∧
    (a.value = ['0'] ∨ b.value = ['0'] → a.MULTIPLY b = BigInt.ofString ['0']) := by
  refine ⟨toInt_MULTIPLY a b ha hb, inv_MULTIPLY a b ha hb, value_MULTIPLY a b ha hb, ?_, ?_⟩
  · intro h1 h2
    have hn := toDecimal_normalized (strVal a.value * strVal b.value)
    simp only [BigInt.MULTIPLY, h1, h2, or_self, if_false, multiplyStrings_eq _ _ ha.1.2 hb.1.2,
      ofString_signed hn.1 hn.2.1, strVal_toDecimal]
    have hna : strVal a.value ≠ 0 := fun h => h1 ((value_eq_zero_iff ha).mpr h)
    have hnb : strVal b.value ≠ 0 := fun h => h2 ((value_eq_zero_iff hb).mpr h)
    simp [Nat.mul_ne_zero hna hnb, hna, hnb]
  · intro h
    simp [BigInt.MULTIPLY, h]

/-- Witness for C3 at `a = -12`, `b = 34`. -/
theorem MULTIPLY_correct_witness :
    Inv ⟨['1', '2'], false⟩ ∧ Inv ⟨['3', '4'], true⟩ ∧
    ((⟨['1', '2'], false⟩ : BigInt).MULTIPLY ⟨['3', '4'], true⟩).toInt =
      (⟨['1', '2'], false⟩ : BigInt).toInt * (⟨['3', '4'], true⟩ : BigInt).toInt :=
  ⟨by decide, by decide,
    (MULTIPLY_correct ⟨['1', '2'], false⟩ ⟨['3', '4'], true⟩ (by decide) (by decide)).1⟩

set_option maxRecDepth 100000 in
/-- Claim C4 fails on the code: `KARATSUBA_MULTIPLY("5", "1234")` does not return a value.
With `n = 2` the low part `x.substr(x.size() - n)` of `"5"` is taken at position
`1 - 2` (which wraps to `2^64 - 1`) and `substr` throws `out_of_range`, whatever the fuel,
while `MULTIPLY("5", "1234")` is `6170`.  Operands of the same length fail too
(`"100005"` and `"100123"`: the low part `"005"` is normalized to `"5"` and multiplied with
`"123"`).  On the operands of the driver both algorithms return `31164644314629504`. -/
theorem karatsuba_short_operand_fails (fuel : Nat) :
    (BigInt.ofString ['5']).KARATSUBA_MULTIPLY (fuel + 1) (BigInt.ofString ['1', '2', '3', '4'])
      = .error .outOfRange ∧
    (BigInt.ofString ['5']).MULTIPLY (BigInt.ofString ['1', '2', '3', '4'])
      = BigInt.ofString ['6', '1', '7', '0'] ∧
    (BigInt.ofString "100005".toList).KARATSUBA_MULTIPLY 5
      (BigInt.ofString "100123".toList) = .error .outOfRange ∧
    (BigInt.ofString "252435234534".toList).KARATSUBA_MULTIPLY 10
      (BigInt.ofString "123456".toList) =
      .ok ((BigInt.ofString "252435234534".toList).MULTIPLY (BigInt.ofString "123456".toList)) ∧
    (BigInt.ofString "252435234534".toList).MULTIPLY (BigInt.ofString "123456".toList) =
      BigInt.ofString "31164644314629504".toList := by
  refine ⟨rfl, by decide, by decide, by decide, by decide⟩

/-- Claim C5 fails on the code: `divideStrings` adds each digit of the dividend to the
running remainder without multiplying the remainder by ten first, so
`DIVIDE("10", "2")` is `0` (not `5`) and `DIVIDE("252435234534", "123456")` is `0`
(not `2044738`), with any fuel of ten or more; `DIVIDE("39", "2")` is `15` (not `19`). -/
theorem divide_omits_the_shift (k : Nat) :
    (BigInt.ofString "10".toList).DIVIDE (k + 10) (BigInt.ofString "2".toList)
      = .ok (BigInt.ofString "0".toList) ∧
    (10 : Nat) / 2 = 5 ∧
    (BigInt.ofString "252435234534".toList).DIVIDE (k + 10) (BigInt.ofString "123456".toList)
      = .ok (BigInt.ofString "0".toList) ∧
    (252435234534 : Nat) / 123456 = 2044738 ∧
    (BigInt.ofString "39".toList).DIVIDE (k + 10) (BigInt.ofString "2".toList)
      = .ok (BigInt.ofString "15".toList) := by
  refine ⟨?_, by norm_num, ?_, by norm_num, ?_⟩
  · rw [DIVIDE_eq (k + 10) (by omega) _ _ (by decide) (by decide) (by decide)]
    exact congrArg Except.ok (by decide)
  · rw [DIVIDE_eq (k + 10) (by omega) _ _ (by decide) (by decide) (by decide)]
    exact congrArg Except.ok (by decide)
  · rw [DIVIDE_eq (k + 10) (by omega) _ _ (by decide) (by decide) (by decide)]
    exact congrArg Except.ok (by decide)

theorem ofNat_of_inv_positive {n : BigInt} (hn : Inv n) (hp : n.isPositive = true) :
    BigInt.ofNat (strVal n.value) = n := by
  obtain ⟨value, isPositive⟩ := n
  simp only at hp
  subst hp
  simp only [BigInt.ofNat, BigInt.mk.injEq, and_true]
  exact toDecimal_strVal (inv_normalized hn)

/-- Claim C6: for all `n`, `d` satisfying the invariants with `d` non-zero, `DIVIDE(n,d)`
returns (given fuel for ten iterations of the inner loop) a value `q` such that the
magnitude of `MULTIPLY(q, d)` is numerically at most the magnitude of `n`; when moreover `n`
is non-negative and `d` positive, `SUBTRACT(n, p)` with `p = MULTIPLY(q, d)` meets its
precondition and returns `r`, and `ADD(p, r)` equals `n`. -/
theorem divide_multiply_le (fuel : Nat) (hf : 10 ≤ fuel) (n d : BigInt) (hn : Inv n)
    (hd : Inv d) (h0 : d.value ≠ ['0']) :
    ∃ q, n.DIVIDE fuel d = .ok q ∧
      strVal (q.MULTIPLY d).value ≤ strVal n.value ∧
      (n.isPositive = true → d.isPositive = true →
        ∃ r, n.SUBTRACT (q.MULTIPLY d) = .ok r ∧ (q.MULTIPLY d).ADD r = n) := by
  have hv : strVal d.value ≠ 0 := fun h => h0 (normalized_eq_zero (inv_normalized hd) h)
  refine ⟨_, DIVIDE_eq fuel hf n d hn hd h0, ?_⟩
  generalize hq : (⟨toDecimal (strVal (quotDigits (strVal d.value) 0 n.value)),
      (n.isPositive == d.isPositive) ||
        decide (strVal (quotDigits (strVal d.value) 0 n.value) = 0)⟩ : BigInt) = q
  have hqi : Inv q := by
    rw [← hq]; exact inv_mk_toDecimal _ _ (fun h => by simp [h])
  have hqv : strVal q.value = strVal (quotDigits (strVal d.value) 0 n.value) := by
    rw [← hq]; exact strVal_toDecimal _
  have hle : strVal (q.MULTIPLY d).value ≤ strVal n.value := by
    rw [value_MULTIPLY q d hqi hd, strVal_toDecimal, hqv]
    have := quotDigits_bound (strVal d.value) 0 n.value (by omega) hn.1.2
    simpa using this
  refine ⟨hle, ?_⟩
  intro hnp _
  have hpi := inv_MULTIPLY q d hqi hd
  refine ⟨_, SUBTRACT_eq n (q.MULTIPLY d) hn hpi hle, ?_⟩
  rw [ADD_eq _ _ hpi.1.1, value_ofNat, Nat.add_sub_cancel' hle]
  exact ofNat_of_inv_positive hn hnp

/-- Witness for C6 at `n = 39`, `d = 2`: the code returns `q = 15`, `p = 30`, `r = 9`. -/
theorem divide_multiply_le_witness :
    Inv ⟨['3', '9'], true⟩ ∧ Inv ⟨['2'], true⟩ ∧
    ∃ q, (⟨['3', '9'], true⟩ : BigInt).DIVIDE 10 ⟨['2'], true⟩ = .ok q ∧
      strVal (q.MULTIPLY ⟨['2'], true⟩).value ≤ strVal (⟨['3', '9'], true⟩ : BigInt).value ∧
      ((⟨['3', '9'], true⟩ : BigInt).isPositive = true →
        (⟨['2'], true⟩ : BigInt).isPositive = true →
        ∃ r, (⟨['3', '9'], true⟩ : BigInt).SUBTRACT (q.MULTIPLY ⟨['2'], true⟩) = .ok r ∧
          (q.MULTIPLY ⟨['2'], true⟩).ADD r = ⟨['3', '9'], true⟩) :=
  ⟨by decide, by decide,
    divide_multiply_le 10 (by decide) ⟨['3', '9'], true⟩ ⟨['2'], true⟩ (by decide) (by decide)
      (by decide)⟩

/-- Claim C7: for all `x`, `d` satisfying the invariants, `DIVIDE(x, d)` raises the
division-by-zero failure if and only if `d` is zero (magnitude `"0"`, however `d` was spelled
at construction); for every non-zero `d` it returns a value, given fuel for ten iterations
of the inner loop, and with less fuel the only other outcome is the exhaustion of the
fuel. -/
theorem DIVIDE_by_zero_iff (fuel : Nat) (x d : BigInt) (hx : Inv x) (hd : Inv d) :
    (x.DIVIDE fuel d = .error .divisionByZero ↔ d.value = ['0']) ∧
    (d.value ≠ ['0'] → 10 ≤ fuel → ∃ q, x.DIVIDE fuel d = .ok q) ∧
    (d.value ≠ ['0'] → ∀ f, x.DIVIDE fuel d = .error f → f = .fuelExhausted) ∧
    (∀ s, ValidDecimal s → (∀ c ∈ digitsOf s, c = '0') →
      x.DIVIDE fuel (BigInt.ofString s) = .error .divisionByZero) := by
  refine ⟨⟨?_, ?_⟩, ?_, ?_, ?_⟩
  · intro h
    by_contra h0
    rcases DIVIDE_cases fuel x d hx hd h0 with h1 | h1
    · rw [h1] at h; cases h
    · rw [h1] at h; cases h
  · intro h
    simp [BigInt.DIVIDE, h]
  · intro h0 hf
    exact ⟨_, DIVIDE_eq fuel hf x d hx hd h0⟩
  · intro h0 f hfe
    rcases DIVIDE_cases fuel x d hx hd h0 with h1 | h1
    · rw [h1] at hfe; cases hfe
    · rw [h1] at hfe
      simp only [Except.error.injEq] at hfe
      exact hfe.symm
  · intro s hs hz
    rw [ofString_zero_spelling s hs hz]
    simp [BigInt.DIVIDE]

/-- Witness for C7 at `x = 39` and the divisors `2` and `-000`. -/
theorem DIVIDE_by_zero_iff_witness :
    Inv ⟨['3', '9'], true⟩ ∧ Inv ⟨['2'], true⟩ ∧
    (∃ q, (⟨['3', '9'], true⟩ : BigInt).DIVIDE 10 ⟨['2'], true⟩ = .ok q) ∧
    (⟨['3', '9'], true⟩ : BigInt).DIVIDE 10 (BigInt.ofString ['-', '0', '0', '0'])
      = .error .divisionByZero :=
  have h := DIVIDE_by_zero_iff 10 ⟨['3', '9'], true⟩ ⟨['2'], true⟩ (by decide) (by decide)
  ⟨by decide, by decide, h.2.1 (by decide) (by decide),
    h.2.2.2 ['-', '0', '0', '0'] (by decide) (by decide)⟩

/-- Claim C8: for every `x` satisfying the invariants and every exponent `e`, `POWER(x, e)`
raises the negative-exponent failure if and only if `e < 0`; for every `e >= 0` it returns a
value: `k + 1` iterations of the loop are enough when `e < 2 ^ k`, so 32 iterations are
enough for every non-negative 32-bit `int`, and with less fuel the only other outcome is the
exhaustion of the fuel. -/
theorem POWER_negative_iff (fuel : Nat) (x : BigInt) (hx : Inv x) (e : Int) :
    (x.POWER fuel e = .error .negativeExponent ↔ e < 0) ∧
    (0 ≤ e → ∀ k : Nat, e < 2 ^ k → ∃ r, x.POWER (k + 1) e = .ok r) ∧
    (0 ≤ e → e < 2 ^ 31 → ∃ r, x.POWER 32 e = .ok r) ∧
    (0 ≤ e → ∀ f, x.POWER fuel e = .error f → f = .fuelExhausted) := by
  refine ⟨⟨?_, ?_⟩, ?_, ?_, ?_⟩
  · intro h
    by_contra h0
    rcases POWER_cases fuel x hx e (by omega) with h1 | h1
    · rw [h1] at h; cases h
    · rw [h1] at h; cases h
  · intro h
    simp [BigInt.POWER, h]
  · intro h0 k hk
    exact ⟨_, POWER_eq k x hx e h0 hk⟩
  · intro h0 h31
    exact ⟨_, POWER_eq 31 x hx e h0 (by exact_mod_cast h31)⟩
  · intro h0 f hfe
    rcases POWER_cases fuel x hx e h0 with h1 | h1
    · rw [h1] at hfe; cases hfe
    · rw [h1] at hfe
      simp only [Except.error.injEq] at hfe
      exact hfe.symm

/-- Witness for C8 at `x = -12` with the exponents `-1` and `5`. -/
theorem POWER_negative_iff_witness :
    Inv ⟨['1', '2'], false⟩ ∧
    (⟨['1', '2'], false⟩ : BigInt).POWER 32 (-1) = .error .negativeExponent ∧
    (∃ r, (⟨['1', '2'], false⟩ : BigInt).POWER 32 5 = .ok r) :=
  ⟨by decide,
    (POWER_negative_iff 32 ⟨['1', '2'], false⟩ (by decide) (-1)).1.mpr (by decide),
    (POWER_negative_iff 32 ⟨['1', '2'], false⟩ (by decide) 5).2.2.1 (by decide) (by decide)⟩

theorem toInt_neg_of_not_positive {x : BigInt} (hx : Inv x) (hp : x.isPositive = false) :
    x.toInt < 0 := by
  have hv : strVal x.value ≠ 0 := by
    intro h
    have := hx.2.2 ((value_eq_zero_iff hx).mpr h)
    rw [hp] at this
    cases this
  simp only [BigInt.toInt, hp, Bool.false_eq_true, if_false]
  omega

theorem toInt_nonneg_of_positive {x : BigInt} (hp : x.isPositive = true) : 0 ≤ x.toInt := by
  simp only [BigInt.toInt, hp, if_true]
  omega

set_option maxRecDepth 100000 in
/-- Claim C9: for every `x` satisfying the invariants (of any sign, zero included) and every
exponent `e >= 0`, `POWER(x, e)` returns (with `k + 1` iterations allowed when `e < 2 ^ k`)
the value denoting the integer `x ^ e`: it satisfies the invariants, its sign flag is
negative exactly when `x` is negative and `e` is odd, `POWER(x, 0)` is `1` for every `x`
and `POWER(x, 1)` is `x`.  On the driver's input `POWER("252435234534", 5)` is the fifth
power `1025061364566894791109409730873895280307767816805559395424`. -/
theorem POWER_correct (k : Nat) (x : BigInt) (hx : Inv x) (e : Int) (h0 : 0 ≤ e)
    (hk : e < 2 ^ k) :
    (∃ r, x.POWER (k + 1) e = .ok r ∧ Inv r ∧ r.toInt = x.toInt ^ e.toNat ∧
      (r.isPositive = false ↔ (x.isPositive = false ∧ e % 2 = 1)) ∧
      (e = 0 → r = BigInt.ofString ['1']) ∧ (e = 1 → r = x)) ∧
    (BigInt.ofString "252435234534".toList).POWER 4 5 =
      .ok (BigInt.ofString "1025061364566894791109409730873895280307767816805559395424".toList)
    := by
  constructor
  · refine ⟨_, POWER_eq k x hx e h0 hk, inv_ofInteger _, toInt_ofInteger _, ?_, ?_, ?_⟩
    · obtain ⟨n, rfl⟩ := Int.eq_ofNat_of_zero_le h0
      simp only [BigInt.ofInteger, Int.toNat_ofNat, decide_eq_false_iff_not, not_le]
      constructor
      · intro hneg
        cases hp : x.isPositive with
        | true =>
          have := pow_nonneg (toInt_nonneg_of_positive hp) n
          omega
        | false =>
          refine ⟨rfl, ?_⟩
          by_contra hodd
          have heven : Even n := by
            rw [Nat.even_iff]; omega
          have := heven.pow_nonneg x.toInt
          omega
      · rintro ⟨hp, hodd⟩
        have hoddn : Odd n := by
          rw [Nat.odd_iff]; omega
        exact hoddn.pow_neg (toInt_neg_of_not_positive hx hp)
    · intro he
      subst he
      simp [ofString_one]
    · intro he
      subst he
      simp [ofInteger_toInt hx]
  · rw [POWER_eq 3 _ (by decide) 5 (by decide) (by decide)]
    exact congrArg Except.ok (by decide)

/-- Witness for C9 at `x = -12`, `e = 3`, `k = 2`. -/
theorem POWER_correct_witness :
    Inv ⟨['1', '2'], false⟩ ∧ (0 : Int) ≤ 3 ∧ (3 : Int) < 2 ^ 2 ∧
    ∃ r, (⟨['1', '2'], false⟩ : BigInt).POWER (2 + 1) 3 = .ok r ∧ Inv r ∧
      r.toInt = (⟨['1', '2'], false⟩ : BigInt).toInt ^ (3 : Int).toNat ∧
      (r.isPositive = false ↔ ((⟨['1', '2'], false⟩ : BigInt).isPositive = false ∧
        (3 : Int) % 2 = 1)) ∧
      ((3 : Int) = 0 → r = BigInt.ofString ['1']) ∧
      ((3 : Int) = 1 → r = ⟨['1', '2'], false⟩) :=
  ⟨by decide, by decide, by decide,
    (POWER_correct 2 ⟨['1', '2'], false⟩ (by decide) 3 (by decide) (by decide)).1⟩

set_option maxRecDepth 100000 in
/-- Claim C10: for every non-negative `n` satisfying the invariants the loop of `FACTORIAL`
terminates (within `n` iterations the counter's magnitude equals that of `n`) and
`FACTORIAL(n)` denotes `n!`: `FACTORIAL(0)` is `1` and, for `n >= 1`,
`FACTORIAL(n) == MULTIPLY(n, FACTORIAL(n - 1))`.  `FACTORIAL(5)` is `120`, `FACTORIAL(10)`
is `3628800` and `FACTORIAL(BigInt(100))` is the 158-digit number `100!`. -/
theorem FACTORIAL_correct (fuel : Nat) (n : BigInt) (hn : Inv n) (hp : n.isPositive = true)
    (hf : strVal n.value ≤ fuel) :
    n.FACTORIAL fuel = .ok (BigInt.ofNat (strVal n.value).factorial) ∧
    (n.value = ['0'] → n.FACTORIAL fuel = .ok (BigInt.ofString ['1'])) ∧
    (n.value ≠ ['0'] → ∃ m r, n.SUBTRACT (BigInt.ofString ['1']) = .ok m ∧
      m.FACTORIAL fuel = .ok r ∧ n.FACTORIAL fuel = .ok (n.MULTIPLY r)) ∧
    (BigInt.ofString ['5']).FACTORIAL 5 = .ok (BigInt.ofString "120".toList) ∧
    (BigInt.ofString "10".toList).FACTORIAL 10 = .ok (BigInt.ofString "3628800".toList) ∧
    (BigInt.ofInt 100).FACTORIAL 100 = .ok (BigInt.ofString
      "93326215443944152681699238856266700490715968264381621468592963895217599993229915608941463976156518286253697920827223758251185210916864000000000000000000000000".toList) ∧
    "93326215443944152681699238856266700490715968264381621468592963895217599993229915608941463976156518286253697920827223758251185210916864000000000000000000000000".toList.length
      = 158 := by
  have hmain := FACTORIAL_eq fuel n hn hf
  refine ⟨hmain, ?_, ?_, ?_, ?_, ?_, by decide⟩
  · intro h0
    simp [BigInt.FACTORIAL, h0]
  · intro h0
    have hv : strVal n.value ≠ 0 := fun h => h0 ((value_eq_zero_iff hn).mpr h)
    have h1 : Inv (BigInt.ofString ['1']) := by decide
    have hs := SUBTRACT_eq n (BigInt.ofString ['1']) hn h1
      (by show 1 ≤ strVal n.value; omega)
    have hone : strVal (BigInt.ofString ['1']).value = 1 := by decide
    rw [hone] at hs
    refine ⟨_, _, hs, FACTORIAL_eq fuel _ (inv_ofNat _) (by rw [value_ofNat]; omega), ?_⟩
    rw [hmain, value_ofNat]
    congr 1
    conv_rhs => rw [← ofNat_of_inv_positive hn hp]
    rw [ofNat_MULTIPLY]
    obtain ⟨m, hm⟩ : ∃ m, strVal n.value = m + 1 := ⟨strVal n.value - 1, by omega⟩
    rw [hm, value_ofNat, Nat.add_sub_cancel, Nat.factorial_succ]
  · rw [FACTORIAL_eq 5 _ (by decide) (by decide)]
    exact congrArg Except.ok (by decide)
  · rw [FACTORIAL_eq 10 _ (by decide) (by decide)]
    exact congrArg Except.ok (by decide)
  · rw [FACTORIAL_eq 100 _ (by decide) (by decide)]
    exact congrArg Except.ok (by decide)

/-- Witness for C10 at `n = 6` with fuel 6. -/
theorem FACTORIAL_correct_witness :
    Inv ⟨['6'], true⟩ ∧ strVal (⟨['6'], true⟩ : BigInt).value ≤ 6 ∧
    (⟨['6'], true⟩ : BigInt).FACTORIAL 6 =
      .ok (BigInt.ofNat (strVal (⟨['6'], true⟩ : BigInt).value).factorial) :=
  ⟨by decide, by decide,
    (FACTORIAL_correct 6 ⟨['6'], true⟩ (by decide) rfl (by decide)).1⟩

/-! ## Addition, subtraction and comparison of values -/

/-- Claim C11: for all `a`, `b` satisfying the invariants, of any signs, `ADD(a,b)` is the
non-negative `BigInt` whose magnitude is the canonical decimal representation of
`|a| + |b|`; the sign flags of the operands are ignored and the sign flag of the result is
always non-negative. -/
theorem ADD_correct (a b : BigInt) (ha : Inv a) (hb : Inv b) :
    a.ADD b = BigInt.ofNat (strVal a.value + strVal b.value) ∧
    (a.ADD b).value = toDecimal (strVal a.value + strVal b.value) ∧
    (a.ADD b).isPositive = true ∧
    Inv (a.ADD b) ∧
    (a.ADD b).toInt = ((a.toInt.natAbs + b.toInt.natAbs : Nat) : Int) ∧
    (∀ s t : Bool, (⟨a.value, s⟩ : BigInt).ADD ⟨b.value, t⟩ = a.ADD b) := by
  have h := ADD_eq a b ha.1.1
  have hb1 := hb.1.1
  refine ⟨h, ?_, ?_, ?_, ?_, fun _ _ => rfl⟩
  · rw [h]; rfl
  · rw [h]; rfl
  · rw [h]; exact inv_ofNat _
  · rw [h, natAbs_toInt, natAbs_toInt, ofNat_eq_ofInteger, toInt_ofInteger]

/-- Witness for C11 at `a = -12`, `b = 34`: the sum of the magnitudes, 46. -/
theorem ADD_correct_witness :
    Inv ⟨['1', '2'], false⟩ ∧ Inv ⟨['3', '4'], true⟩ ∧
    (⟨['1', '2'], false⟩ : BigInt).ADD ⟨['3', '4'], true⟩ =
      BigInt.ofNat (strVal (⟨['1', '2'], false⟩ : BigInt).value +
        strVal (⟨['3', '4'], true⟩ : BigInt).value) :=
  ⟨by decide, by decide,
    (ADD_correct ⟨['1', '2'], false⟩ ⟨['3', '4'], true⟩ (by decide) (by decide)).1⟩

/-- Claim C12: for all `a`, `b` satisfying the invariants with `|a| >= |b|` numerically,
`SUBTRACT(a,b)` is the non-negative `BigInt` whose magnitude is the canonical decimal
representation of `|a| - |b|`: the borrow scan returns a digit string as long as the minuend
(so with leading zeros when the difference is shorter), the constructor strips them, and
equal magnitudes give exactly `"0"`; the scan never reads before the start of the
minuend. -/
theorem SUBTRACT_correct (a b : BigInt) (ha : Inv a) (hb : Inv b)
    (hle : strVal b.value ≤ strVal a.value) :
    a.SUBTRACT b = .ok (BigInt.ofNat (strVal a.value - strVal b.value)) ∧
    (∃ raw, subtractStrings a.value b.value = .ok raw ∧ IsDigits raw ∧
      raw.length = a.value.length ∧ strVal raw = strVal a.value - strVal b.value ∧
      BigInt.ofString raw = BigInt.ofNat (strVal a.value - strVal b.value)) ∧
    (strVal a.value = strVal b.value → a.SUBTRACT b = .ok (BigInt.ofString ['0'])) ∧
    subtractStrings a.value b.value ≠ .error .readBeforeStart ∧
    Inv (BigInt.ofNat (strVal a.value - strVal b.value)) := by
  have h := SUBTRACT_eq a b ha hb hle
  obtain ⟨r, hr, hrd, hrl, hrv⟩ := subtractStrings_spec a.value b.value ha.1.2 hb.1.2
    (normalized_length_le (inv_normalized hb) (inv_normalized ha) hle) hle
  have hne : r ≠ [] := by
    intro h0
    rw [h0] at hrl
    exact ha.1.1 (List.length_eq_zero.mp hrl.symm)
  have hv : strVal r = strVal a.value - strVal b.value := by omega
  refine ⟨h, ⟨r, hr, hrd, hrl, hv, ?_⟩, ?_, ?_, inv_ofNat _⟩
  · rw [ofString_digits hne hrd, hv]
  · intro heq
    rw [h, heq, Nat.sub_self]
    rfl
  · rw [hr]
    intro hc
    cases hc

/-- Witness for C12 at `a = 1000`, `b = -999`: the scan gives `0001`, the result is `1`. -/
theorem SUBTRACT_correct_witness :
    Inv ⟨['1', '0', '0', '0'], true⟩ ∧ Inv ⟨['9', '9', '9'], false⟩ ∧
    strVal (⟨['9', '9', '9'], false⟩ : BigInt).value ≤
      strVal (⟨['1', '0', '0', '0'], true⟩ : BigInt).value ∧
    (⟨['1', '0', '0', '0'], true⟩ : BigInt).SUBTRACT ⟨['9', '9', '9'], false⟩ =
      .ok (BigInt.ofNat (strVal (⟨['1', '0', '0', '0'], true⟩ : BigInt).value -
        strVal (⟨['9', '9', '9'], false⟩ : BigInt).value)) :=
  ⟨by decide, by decide, by decide,
    (SUBTRACT_correct ⟨['1', '0', '0', '0'], true⟩ ⟨['9', '9', '9'], false⟩ (by decide)
      (by decide) (by decide)).1⟩

/-- Claim C13: for all non-negative `a`, `b` satisfying the invariants with `a >= b`
numerically, `SUBTRACT(ADD(a,b), b) == a` and `ADD(SUBTRACT(a,b), b) == a`, with equal
magnitude string and equal sign flag. -/
theorem add_subtract_inverse (a b : BigInt) (ha : Inv a) (hb : Inv b)
    (pa : a.isPositive = true) (_pb : b.isPositive = true)
    (hle : strVal b.value ≤ strVal a.value) :
    (a.ADD b).SUBTRACT b = .ok a ∧
    ∃ d, a.SUBTRACT b = .ok d ∧ d.ADD b = a := by
  have hadd := ADD_eq a b ha.1.1
  constructor
  · rw [hadd, SUBTRACT_eq _ b (inv_ofNat _) hb (by rw [value_ofNat]; omega), value_ofNat,
      Nat.add_sub_cancel, ofNat_of_inv_positive ha pa]
  · refine ⟨_, SUBTRACT_eq a b ha hb hle, ?_⟩
    rw [ADD_eq _ b (toDecimal_ne_nil _), value_ofNat, Nat.sub_add_cancel hle,
      ofNat_of_inv_positive ha pa]

/-- Witness for C13 at `a = 1000`, `b = 999`. -/
theorem add_subtract_inverse_witness :
    Inv ⟨['1', '0', '0', '0'], true⟩ ∧ Inv ⟨['9', '9', '9'], true⟩ ∧
    ((⟨['1', '0', '0', '0'], true⟩ : BigInt).ADD ⟨['9', '9', '9'], true⟩).SUBTRACT
        ⟨['9', '9', '9'], true⟩ = .ok ⟨['1', '0', '0', '0'], true⟩ ∧
    ∃ d, (⟨['1', '0', '0', '0'], true⟩ : BigInt).SUBTRACT ⟨['9', '9', '9'], true⟩ = .ok d ∧
      d.ADD ⟨['9', '9', '9'], true⟩ = ⟨['1', '0', '0', '0'], true⟩ :=
  ⟨by decide, by decide,
    add_subtract_inverse ⟨['1', '0', '0', '0'], true⟩ ⟨['9', '9', '9'], true⟩ (by decide)
      (by decide) rfl rfl (by decide)⟩

theorem toInt_of_positive {a : BigInt} (pa : a.isPositive = true) :
    a.toInt = (strVal a.value : Int) := by
  simp [BigInt.toInt, pa]

/-- Claim C14: for all non-negative `a`, `b` satisfying the invariants, `a >= b` returns
true exactly when the integer `a` denotes is greater than or equal to the integer `b`
denotes: a longer magnitude wins, magnitudes of equal length are compared
lexicographically, which is the numeric order there; the test of the inner loop of
`divideStrings` compares such values, so it is the numeric test `divisor <= tempDividend`. -/
theorem ge_nonneg_correct (a b : BigInt) (ha : Inv a) (hb : Inv b)
    (pa : a.isPositive = true) (pb : b.isPositive = true) :
    (a.ge b = true ↔ b.toInt ≤ a.toInt) ∧
    (b.value.length < a.value.length → a.ge b = true ∧ b.toInt < a.toInt) ∧
    (a.value.length = b.value.length →
      a.ge b = strGe a.value b.value ∧ (strGe a.value b.value = true ↔ b.toInt ≤ a.toInt)) ∧
    (∀ (t : Nat) (divisor : List Char), Normalized divisor →
      (BigInt.ofNat t).ge (BigInt.ofString divisor) = decide (strVal divisor ≤ t)) := by
  have hge := ge_eq a b ha hb pa pb
  have hta := toInt_of_positive pa
  have htb := toInt_of_positive pb
  refine ⟨?_, ?_, ?_, ?_⟩
  · rw [hge, hta, htb, decide_eq_true_iff]
    omega
  · intro hlen
    have hlt : strVal b.value < strVal a.value := by
      by_contra hc
      have := normalized_length_le (inv_normalized ha) (inv_normalized hb) (by omega)
      omega
    refine ⟨?_, by rw [hta, htb]; omega⟩
    rw [hge, decide_eq_true_iff]
    omega
  · intro hlen
    have hs := strGe_eq ha.1.2 hb.1.2 hlen
    refine ⟨by rw [hge, hs], ?_⟩
    rw [hs, hta, htb, decide_eq_true_iff]
    omega
  · intro t divisor hn
    rw [ofString_digits hn.1 hn.2.1, ge_eq _ _ (inv_ofNat _) (inv_ofNat _) rfl rfl,
      value_ofNat, value_ofNat]

/-- Witness for C14 at `a = 1000`, `b = 999`. -/
theorem ge_nonneg_correct_witness :
    Inv ⟨['1', '0', '0', '0'], true⟩ ∧ Inv ⟨['9', '9', '9'], true⟩ ∧
    ((⟨['1', '0', '0', '0'], true⟩ : BigInt).ge ⟨['9', '9', '9'], true⟩ = true ↔
      (⟨['9', '9', '9'], true⟩ : BigInt).toInt ≤ (⟨['1', '0', '0', '0'], true⟩ : BigInt).toInt) :=
  ⟨by decide, by decide,
    (ge_nonneg_correct ⟨['1', '0', '0', '0'], true⟩ ⟨['9', '9', '9'], true⟩ (by decide)
      (by decide) rfl rfl).1⟩

/-! ## The constructor from `int` -/

theorem wrapInt32_of_lt {z : Int} (h1 : -2 ^ 31 ≤ z) (h2 : z < 2 ^ 31) : wrapInt32 z = z := by
  unfold wrapInt32
  norm_num at h1 h2 ⊢
  omega

/-- For every `int` other than `INT_MIN` the constructor from `int` gives the value denoting
the integer, which satisfies the invariants and equals the value constructed from the
decimal string of the integer. -/
theorem ofInt_eq_ofInteger (v : Int) (h1 : -2 ^ 31 < v) (h2 : v < 2 ^ 31) :
    BigInt.ofInt v = BigInt.ofInteger v ∧ Inv (BigInt.ofInt v) ∧
      BigInt.ofInt v = BigInt.ofString (toStringInt v) := by
  have habs : absInt v = (v.natAbs : Int) := by
    unfold absInt
    norm_num at h1 h2
    split_ifs with hneg
    · rw [wrapInt32_of_lt (by norm_num; omega) (by norm_num; omega)]; omega
    · rw [wrapInt32_of_lt (by norm_num; omega) (by norm_num; omega)]; omega
  have h : BigInt.ofInt v = BigInt.ofInteger v := by
    unfold BigInt.ofInt BigInt.ofInteger toStringInt
    rw [habs, if_neg (by omega), Int.natAbs_ofNat]
  refine ⟨h, by rw [h]; exact inv_ofInteger v, ?_⟩
  rw [h]
  have hn := toDecimal_normalized v.natAbs
  unfold toStringInt BigInt.ofInteger
  split_ifs with hneg
  · rw [ofString_minus hn.1 hn.2.1, strVal_toDecimal]
    have h0 : v.natAbs ≠ 0 := by omega
    simp [h0]
    omega
  · rw [ofString_digits hn.1 hn.2.1, strVal_toDecimal, BigInt.ofNat]
    simp
    omega

/-- Claim C15 fails on the code at `INT_MIN`: with the overflow of `abs` wrapping around,
`abs(-2147483648)` is `-2147483648`, so `BigInt(-2147483648)` stores the magnitude
`"-2147483648"`, which is not a digit string: I1 fails, the magnitude is not the decimal
digits `2147483648` of `|v|`, and the value differs from `BigInt("-2147483648")`.  (For
every other `int` the claim holds, see `ofInt_eq_ofInteger`.) -/
theorem ofInt_INT_MIN_not_digits :
    absInt (-2147483648) = -2147483648 ∧
    BigInt.ofInt (-2147483648) = ⟨"-2147483648".toList, false⟩ ∧
    ¬ I1 (BigInt.ofInt (-2147483648)) ∧
    ¬ Inv (BigInt.ofInt (-2147483648)) ∧
    (BigInt.ofInt (-2147483648)).value ≠ toDecimal 2147483648 ∧
    BigInt.ofString (toStringInt (-2147483648)) = ⟨"2147483648".toList, false⟩ ∧
    BigInt.ofInt (-2147483648) ≠ BigInt.ofString (toStringInt (-2147483648)) := by
  refine ⟨by decide, by decide, by decide, by decide, by decide, by decide, by decide⟩

/-! ## Comparison of negative values -/

/-- What `operator>=` computes on values satisfying the invariants: with different sign
flags the non-negative operand is the greater one, with equal sign flags the magnitudes are
compared, also when both values are negative. -/
theorem ge_characterization (a b : BigInt) (ha : Inv a) (hb : Inv b) :
    a.ge b = if a.isPositive = b.isPositive then decide (strVal b.value ≤ strVal a.value)
      else a.isPositive := by
  obtain ⟨av, ap⟩ := a
  obtain ⟨bv, bp⟩ := b
  have h1 := ge_eq ⟨av, true⟩ ⟨bv, true⟩
    ⟨ha.1, ha.2.1, fun _ => rfl⟩ ⟨hb.1, hb.2.1, fun _ => rfl⟩ rfl rfl
  cases ap <;> cases bp
  · simpa [BigInt.ge] using h1
  · simp [BigInt.ge]
  · simp [BigInt.ge]
  · simpa [BigInt.ge] using h1

/-- When the operands are not both negative, `operator>=` is the numeric order. -/
theorem ge_numeric_unless_both_negative (a b : BigInt) (ha : Inv a) (hb : Inv b)
    (h : a.isPositive = true ∨ b.isPositive = true) :
    (a.ge b = true ↔ b.toInt ≤ a.toInt) := by
  rw [ge_characterization a b ha hb]
  cases hpa : a.isPositive <;> cases hpb : b.isPositive
  · rw [hpa, hpb] at h; simp at h
  · have h1 := toInt_neg_of_not_positive ha hpa
    have h2 := toInt_nonneg_of_positive hpb
    simp
    omega
  · have h1 := toInt_neg_of_not_positive hb hpb
    have h2 := toInt_nonneg_of_positive hpa
    simp
    omega
  · rw [toInt_of_positive hpa, toInt_of_positive hpb]
    simp

/-- Claim C16 fails on the code for two negative values: `BigInt("-5") >= BigInt("-3")`
returns true although `-5 < -3`, and `BigInt("-3") >= BigInt("-5")` returns false although
`-3 >= -5`; with equal sign flags the code compares the magnitudes whatever the sign. -/
theorem ge_both_negative_reversed :
    (BigInt.ofString ['-', '5']).ge (BigInt.ofString ['-', '3']) = true ∧
    (BigInt.ofString ['-', '5']).toInt < (BigInt.ofString ['-', '3']).toInt ∧
    (BigInt.ofString ['-', '3']).ge (BigInt.ofString ['-', '5']) = false ∧
    (BigInt.ofString ['-', '5']).toInt ≤ (BigInt.ofString ['-', '3']).toInt ∧
    Inv (BigInt.ofString ['-', '5']) ∧ Inv (BigInt.ofString ['-', '3']) := by
  refine ⟨by decide, by decide, by decide, by decide, by decide, by decide⟩

/-! ## Division when the digit sum is small -/

theorem quotDigits_small (d r : Nat) (ds : List Char) (h : r + digitSum ds < d) :
    quotDigits d r ds = List.replicate ds.length '0' := by
  induction ds generalizing r with
  | nil => rfl
  | cons c cs ih =>
    have hsum : digitSum (c :: cs) = digitVal c + digitSum cs := by
      simp [digitSum]
    rw [hsum] at h
    have hlt : r + digitVal c < d := by omega
    simp only [quotDigits, Nat.div_eq_of_lt hlt, Nat.mod_eq_of_lt hlt, List.length_cons,
      List.replicate_succ]
    rw [ih (r + digitVal c) (by omega)]
    rfl

/-- Claim C20: for all `n`, `d` satisfying the invariants with `d` non-zero, if the sum of
the decimal digits of the magnitude of `n` is numerically smaller than the magnitude of `d`,
then every quotient digit is `0` and `DIVIDE(n,d)` is exactly `BigInt("0")` (given fuel for
ten iterations of the inner loop): `divideStrings` adds each next digit to the running
remainder without multiplying the remainder by ten first. -/
theorem DIVIDE_small_digit_sum (fuel : Nat) (hf : 10 ≤ fuel) (n d : BigInt) (hn : Inv n)
    (hd : Inv d) (h0 : d.value ≠ ['0']) (hs : digitSum n.value < strVal d.value) :
    n.DIVIDE fuel d = .ok (BigInt.ofString ['0']) ∧
    divideStrings fuel n.value d.value = .ok (List.replicate n.value.length '0') := by
  have hq := quotDigits_small (strVal d.value) 0 n.value (by omega)
  constructor
  · rw [DIVIDE_eq fuel hf n d hn hd h0, hq, strVal_replicate_zero]
    simp
    rfl
  · rw [divideStrings_spec fuel hf _ _ hn.1.2 hn.1.1 (inv_normalized hd) h0, hq]

/-- Witness for C20 at the driver's operands `252435234534` (digit sum 42) and `123456`. -/
theorem DIVIDE_small_digit_sum_witness :
    Inv (BigInt.ofString "252435234534".toList) ∧ Inv (BigInt.ofString "123456".toList) ∧
    digitSum (BigInt.ofString "252435234534".toList).value = 42 ∧
    (BigInt.ofString "252435234534".toList).DIVIDE 10 (BigInt.ofString "123456".toList) =
      .ok (BigInt.ofString ['0']) :=
  ⟨by decide, by decide, by decide,
    (DIVIDE_small_digit_sum 10 (by decide) (BigInt.ofString "252435234534".toList)
      (BigInt.ofString "123456".toList) (by decide) (by decide) (by decide) (by decide)).1⟩

/-! ## The Karatsuba recursion -/

/-- One level of `karatsubaMultiply`: the base case, the two low parts, the combination. -/
theorem karatsubaMultiply_split (fuel : Nat) (x y : List Char) :
    karatsubaMultiply (fuel + 1) x y =
      (if max x.length y.length = 1 then .ok (multiplyStrings x y)
      else do
        let x0 ← substrFrom x (sizeSub x.length (halfLen x y))
        let y0 ← substrFrom y (sizeSub y.length (halfLen x y))
        karatsubaCombine fuel (halfLen x y) (highPart (halfLen x y) x) x0
          (highPart (halfLen x y) y) y0) := rfl

theorem ok_bind {α β : Type} (a : α) (f : α → Except Failure β) :
    (Except.ok a >>= f) = f a := rfl

theorem error_bind {α β : Type} (e : Failure) (f : α → Except Failure β) :
    ((Except.error e : Except Failure α) >>= f) = Except.error e := rfl

theorem sizeSub_of_le {size n : Nat} (h : n ≤ size) (hs : size < 2 ^ 64) :
    sizeSub size n = size - n := by
  unfold sizeSub
  have hn : n % 2 ^ 64 = n := Nat.mod_eq_of_lt (by omega)
  rw [hn]
  have : size + 2 ^ 64 - n = (size - n) + 2 ^ 64 := by omega
  rw [this, Nat.add_mod_right, Nat.mod_eq_of_lt (by omega)]

theorem sizeSub_of_lt {size n : Nat} (h : size < n) (hn : n < 2 ^ 64) :
    size < sizeSub size n := by
  unfold sizeSub
  rw [Nat.mod_eq_of_lt hn, Nat.mod_eq_of_lt (by omega)]
  omega

theorem substrFrom_low {s : List Char} {n : Nat} (h : n ≤ s.length) (hs : s.length < 2 ^ 64) :
    substrFrom s (sizeSub s.length n) = .ok (s.drop (s.length - n)) := by
  unfold substrFrom
  rw [sizeSub_of_le h hs, if_neg (by omega)]

theorem substrFrom_short {s : List Char} {n : Nat} (h : s.length < n) (hn : n < 2 ^ 64) :
    substrFrom s (sizeSub s.length n) = .error .outOfRange := by
  unfold substrFrom
  rw [if_pos (sizeSub_of_lt h hn)]

theorem halfLen_bounds (x y : List Char) (h : 2 ≤ max x.length y.length) :
    1 ≤ halfLen x y ∧ halfLen x y < max x.length y.length := by
  unfold halfLen
  omega

theorem isDigits_take {s : List Char} (h : IsDigits s) (k : Nat) : IsDigits (s.take k) :=
  fun c hc => h c (List.mem_of_mem_take hc)

theorem isDigits_drop {s : List Char} (h : IsDigits s) (k : Nat) : IsDigits (s.drop k) :=
  fun c hc => h c (List.mem_of_mem_drop hc)

theorem highPart_digits {x : List Char} (hx : IsDigits x) (n : Nat) :
    IsDigits (highPart n x) ∧ highPart n x ≠ [] := by
  unfold highPart
  split_ifs with h
  · refine ⟨isDigits_take hx _, ?_⟩
    intro h0
    have := congrArg List.length h0
    simp only [List.length_take, List.length_nil] at this
    omega
  · exact ⟨by decide, by simp⟩

/-- The split of `karatsubaMultiply` is the decimal split: `x = x1 * 10^n + x0`. -/
theorem split_value (x : List Char) (n : Nat) (h : n ≤ x.length) :
    strVal x = strVal (highPart n x) * 10 ^ n + strVal (x.drop (x.length - n)) := by
  unfold highPart
  split_ifs with hlt
  · conv_lhs => rw [← List.take_append_drop (x.length - n) x]
    have hl : (x.drop (x.length - n)).length = n := by
      simp only [List.length_drop]; omega
    rw [strVal_append, hl]
  · have hn : x.length - n = 0 := by omega
    rw [hn, List.drop_zero]
    have : strVal ['0'] = 0 := rfl
    rw [this]
    omega

theorem low_lt (x : List Char) (hx : IsDigits x) (n : Nat) (h : n ≤ x.length) :
    strVal (x.drop (x.length - n)) < 10 ^ n := by
  have := strVal_lt (isDigits_drop hx (x.length - n))
  have hl : (x.drop (x.length - n)).length = n := by
    simp only [List.length_drop]; omega
  rwa [hl] at this

/-- The high part of a canonical non-zero operand longer than `n` is not zero. -/
theorem high_pos (x : List Char) (hx : Normalized x) (hx0 : x ≠ ['0']) (n : Nat)
    (h : n < x.length) : 1 ≤ strVal (highPart n x) := by
  have h1 := normalized_lower hx hx0
  have h2 := low_lt x hx.2.1 n (by omega)
  have h3 := split_value x n (by omega)
  have h4 : 10 ^ n ≤ 10 ^ (x.length - 1) := Nat.pow_le_pow_right (by norm_num) (by omega)
  by_contra hc
  have h0 : strVal (highPart n x) = 0 := by omega
  rw [h0] at h3
  omega

theorem length_toDecimal_le {v : Nat} {x : List Char} (hx : Normalized x)
    (h : v ≤ strVal x) : (toDecimal v).length ≤ x.length :=
  normalized_length_le (toDecimal_normalized v) hx (by rw [strVal_toDecimal]; exact h)

theorem KARATSUBA_ofNat_outcome (f : Nat)
    (IH : ∀ x y, Normalized x → Normalized y → x ≠ ['0'] → y ≠ ['0'] →
      x.length < 2 ^ 31 → y.length < 2 ^ 31 →
      KOut (karatsubaMultiply f x y) (strVal x * strVal y) (strVal x + strVal y < f))
    (m k : Nat) (hm : (toDecimal m).length < 2 ^ 31) (hk : (toDecimal k).length < 2 ^ 31) :
    (BigInt.ofNat m).KARATSUBA_MULTIPLY f (BigInt.ofNat k) = .ok (BigInt.ofNat (m * k)) ∨
    (BigInt.ofNat m).KARATSUBA_MULTIPLY f (BigInt.ofNat k) = .error .outOfRange ∨
    ((BigInt.ofNat m).KARATSUBA_MULTIPLY f (BigInt.ofNat k) = .error .fuelExhausted ∧
      ¬ (m + k < f)) := by
  unfold BigInt.KARATSUBA_MULTIPLY
  simp only [BigInt.ofNat, toDecimal_eq_zero_iff]
  by_cases h0 : m = 0 ∨ k = 0
  · rw [if_pos h0]
    left
    have : m * k = 0 := by
      rcases h0 with h | h <;> simp [h]
    rw [this]
    rfl
  · rw [if_neg h0]
    have hm0 : m ≠ 0 := fun h => h0 (Or.inl h)
    have hk0 : k ≠ 0 := fun h => h0 (Or.inr h)
    have hx0 : toDecimal m ≠ ['0'] := fun h => hm0 (toDecimal_eq_zero_iff.mp h)
    have hy0 : toDecimal k ≠ ['0'] := fun h => hk0 (toDecimal_eq_zero_iff.mp h)
    have := IH (toDecimal m) (toDecimal k) (toDecimal_normalized m) (toDecimal_normalized k)
      hx0 hy0 hm hk
    rw [strVal_toDecimal, strVal_toDecimal] at this
    rcases this with ⟨r, hr, hd, hne, hv⟩ | he | ⟨he, hn⟩
    · left
      rw [hr, ok_bind]
      have hs : signed (true == true) r = r := rfl
      rw [hs, ofString_digits hne hd, hv]
      rfl
    · right; left
      rw [he, error_bind]
    · right; right
      rw [he, error_bind]
      exact ⟨rfl, hn⟩

/-- The combination step of `karatsubaMultiply`, given the outcomes of the recursive calls:
both subtractions meet their precondition and the result denotes the product. -/
theorem karatsubaCombine_outcome (f n : Nat) (hn : 1 ≤ n)
    (IH : ∀ x y, Normalized x → Normalized y → x ≠ ['0'] → y ≠ ['0'] →
      x.length < 2 ^ 31 → y.length < 2 ^ 31 →
      KOut (karatsubaMultiply f x y) (strVal x * strVal y) (strVal x + strVal y < f))
    (a1 a0 b1 b0 : Nat) (x1 x0 y1 y0 : List Char)
    (hX1 : BigInt.ofString x1 = BigInt.ofNat a1) (hX0 : BigInt.ofString x0 = BigInt.ofNat a0)
    (hY1 : BigInt.ofString y1 = BigInt.ofNat b1) (hY0 : BigInt.ofString y0 = BigInt.ofNat b0)
    (hfa : (toDecimal (a1 * 10 ^ n + a0)).length < 2 ^ 31)
    (hfb : (toDecimal (b1 * 10 ^ n + b0)).length < 2 ^ 31)
    (hhigh : 1 ≤ a1 ∨ 1 ≤ b1) :
    KOut (karatsubaCombine f n x1 x0 y1 y0) ((a1 * 10 ^ n + a0) * (b1 * 10 ^ n + b0))
      ((a1 * 10 ^ n + a0) + (b1 * 10 ^ n + b0) < f + 1) := by
  have hP : 10 ≤ 10 ^ n := by
    calc 10 = 10 ^ 1 := by norm_num
      _ ≤ 10 ^ n := Nat.pow_le_pow_right (by norm_num) hn
  have hPP : 10 ^ (2 * n) = 10 ^ n * 10 ^ n := by rw [two_mul, pow_add]
  have fit : ∀ v, v ≤ a1 * 10 ^ n + a0 → (toDecimal v).length < 2 ^ 31 := fun v hv =>
    lt_of_le_of_lt (length_toDecimal_le (toDecimal_normalized _)
      (by rw [strVal_toDecimal]; exact hv)) hfa
  have fit2 : ∀ v, v ≤ b1 * 10 ^ n + b0 → (toDecimal v).length < 2 ^ 31 := fun v hv =>
    lt_of_le_of_lt (length_toDecimal_le (toDecimal_normalized _)
      (by rw [strVal_toDecimal]; exact hv)) hfb
  have ha10 : a1 * 10 ≤ a1 * 10 ^ n := Nat.mul_le_mul_left _ hP
  have hb10 : b1 * 10 ≤ b1 * 10 ^ n := Nat.mul_le_mul_left _ hP
  unfold karatsubaCombine
  rw [hX1, hX0, hY1, hY0, ofNat_ADD, ofNat_ADD]
  rcases KARATSUBA_ofNat_outcome f IH a1 b1 (fit _ (by omega)) (fit2 _ (by omega))
    with h | h | ⟨h, hne⟩
  swap
  · right; left
    rw [h, error_bind]
  swap
  · right; right
    rw [h, error_bind]
    exact ⟨rfl, by omega⟩
  rw [h, ok_bind]
  rcases KARATSUBA_ofNat_outcome f IH a0 b0 (fit _ (by omega)) (fit2 _ (by omega))
    with h | h | ⟨h, hne⟩
  swap
  · right; left
    rw [h, error_bind]
  swap
  · right; right
    rw [h, error_bind]
    exact ⟨rfl, by omega⟩
  rw [h, ok_bind]
  rcases KARATSUBA_ofNat_outcome f IH (a1 + a0) (b1 + b0) (fit _ (by omega))
    (fit2 _ (by omega)) with h | h | ⟨h, hne⟩
  swap
  · right; left
    rw [h, error_bind]
  swap
  · right; right
    rw [h, error_bind]
    exact ⟨rfl, by omega⟩
  rw [h, ok_bind]
  have e1 : (a1 + a0) * (b1 + b0) = a1 * b1 + a0 * b0 + (a1 * b0 + a0 * b1) := by ring
  rw [SUBTRACT_eq _ _ (inv_ofNat _) (inv_ofNat _) (by rw [value_ofNat, value_ofNat]; omega),
    ok_bind, value_ofNat, value_ofNat,
    SUBTRACT_eq _ _ (inv_ofNat _) (inv_ofNat _) (by rw [value_ofNat, value_ofNat]; omega),
    ok_bind, value_ofNat, value_ofNat]
  left
  refine ⟨_, rfl, isDigits_addStrings _ _,
    addStrings_ne_nil (Or.inl (addStrings_ne_nil (Or.inl ?_))), ?_⟩
  · intro h0
    have := congrArg List.length h0
    simp only [List.length_append, List.length_replicate, List.length_nil] at this
    omega
  · simp only [strVal_addStrings, strVal_append, strVal_replicate_zero, List.length_replicate,
      BigInt.ofNat, strVal_toDecimal, Nat.add_zero, hPP]
    have e2 : (a1 + a0) * (b1 + b0) - a1 * b1 - a0 * b0 = a1 * b0 + a0 * b1 := by omega
    rw [e2]
    ring

theorem drop_low_digits {x : List Char} (hx : IsDigits x) {n : Nat} (hn : 1 ≤ n)
    (h : n ≤ x.length) :
    x.drop (x.length - n) ≠ [] ∧ IsDigits (x.drop (x.length - n)) := by
  refine ⟨?_, isDigits_drop hx _⟩
  intro h0
  have := congrArg List.length h0
  simp only [List.length_drop, List.length_nil] at this
  omega

/-- The outcome of `karatsubaMultiply` on canonical non-zero magnitudes whose lengths fit an
`int`: a digit string denoting the product, or the `out_of_range` failure of `substr`, or
the exhaustion of the fuel, the last only when the fuel does not exceed the sum of the two
numbers. -/
theorem karatsuba_outcome (fuel : Nat) :
    ∀ x y, Normalized x → Normalized y → x ≠ ['0'] → y ≠ ['0'] →
      x.length < 2 ^ 31 → y.length < 2 ^ 31 →
      KOut (karatsubaMultiply fuel x y) (strVal x * strVal y) (strVal x + strVal y < fuel) := by
  induction fuel with
  | zero =>
    intro x y _ _ _ _ _ _
    right; right
    exact ⟨rfl, by omega⟩
  | succ f ih =>
    intro x y hx hy hx0 hy0 hfx hfy
    rw [karatsubaMultiply_split]
    by_cases h1 : max x.length y.length = 1
    · rw [if_pos h1]
      left
      refine ⟨_, rfl, ?_⟩
      rw [multiplyStrings_eq x y hx.2.1 hy.2.1]
      exact ⟨(toDecimal_normalized _).2.1, toDecimal_ne_nil _, strVal_toDecimal _⟩
    · rw [if_neg h1]
      have hxl : 0 < x.length := List.length_pos.mpr hx.1
      have hm1 : x.length ≤ max x.length y.length := le_max_left _ _
      have hL : 2 ≤ max x.length y.length := by omega
      obtain ⟨hn1, hn2⟩ := halfLen_bounds x y hL
      have hmax : max x.length y.length < 2 ^ 31 := max_lt hfx hfy
      by_cases hxs : x.length < halfLen x y
      · rw [substrFrom_short hxs (by omega), error_bind]
        right; left; rfl
      · rw [substrFrom_low (by omega) (by omega), ok_bind]
        by_cases hys : y.length < halfLen x y
        · rw [substrFrom_short hys (by omega), error_bind]
          right; left; rfl
        · rw [substrFrom_low (by omega) (by omega), ok_bind]
          have hxn : halfLen x y ≤ x.length := by omega
          have hyn : halfLen x y ≤ y.length := by omega
          obtain ⟨dx1, dx2⟩ := drop_low_digits hx.2.1 hn1 hxn
          obtain ⟨dy1, dy2⟩ := drop_low_digits hy.2.1 hn1 hyn
          obtain ⟨px1, px2⟩ := highPart_digits hx.2.1 (halfLen x y)
          obtain ⟨py1, py2⟩ := highPart_digits hy.2.1 (halfLen x y)
          have hhigh : 1 ≤ strVal (highPart (halfLen x y) x) ∨
              1 ≤ strVal (highPart (halfLen x y) y) := by
            rcases lt_max_iff.mp hn2 with h | h
            · exact Or.inl (high_pos x hx hx0 _ h)
            · exact Or.inr (high_pos y hy hy0 _ h)
          have hsx := split_value x (halfLen x y) hxn
          have hsy := split_value y (halfLen x y) hyn
          have := karatsubaCombine_outcome f (halfLen x y) hn1 ih
            (strVal (highPart (halfLen x y) x)) (strVal (x.drop (x.length - halfLen x y)))
            (strVal (highPart (halfLen x y) y)) (strVal (y.drop (y.length - halfLen x y)))
            (highPart (halfLen x y) x) (x.drop (x.length - halfLen x y))
            (highPart (halfLen x y) y) (y.drop (y.length - halfLen x y))
            (ofString_digits px2 px1) (ofString_digits dx1 dx2)
            (ofString_digits py2 py1) (ofString_digits dy1 dy2)
            (by rw [← hsx, toDecimal_strVal hx]; exact hfx)
            (by rw [← hsy, toDecimal_strVal hy]; exact hfy) hhigh
          rw [← hsx, ← hsy] at this
          exact this

theorem substrFrom_ok_iff {s : List Char} {n : Nat} (hs : s.length < 2 ^ 31)
    (hn : n < 2 ^ 31) {r : List Char} (h : substrFrom s (sizeSub s.length n) = .ok r) :
    n ≤ s.length ∧ r = s.drop (s.length - n) := by
  by_cases hlt : s.length < n
  · rw [substrFrom_short hlt (by omega)] at h
    cases h
  · rw [substrFrom_low (by omega) (by omega)] at h
    simp only [Except.ok.injEq] at h
    exact ⟨by omega, h.symm⟩

/-- Claim C17: the Karatsuba recursion is well-founded.  For canonical non-zero magnitudes
`x`, `y` (of lengths that fit the `int n` of the code) whose longer length is at least 2,
whenever both low parts are taken, the operands of the three recursive calls - `(X1, Y1)`,
`(X0, Y0)` and `(X1 + X0, Y1 + Y0)`, as the `BigInt` constructor normalizes them - satisfy
the invariants and the sum of the two numbers is strictly smaller than for `(x, y)`.  So
with fuel above the sum of the two numbers neither `karatsubaMultiply` nor
`KARATSUBA_MULTIPLY` runs out of fuel: every call chain ends in the base case, the zero
short-circuit or a failure. -/
theorem karatsuba_wellfounded (x y : List Char) (hx : Normalized x) (hy : Normalized y)
    (hx0 : x ≠ ['0']) (hy0 : y ≠ ['0']) (hL : 2 ≤ max x.length y.length)
    (hfx : x.length < 2 ^ 31) (hfy : y.length < 2 ^ 31) :
    (∀ x0 y0, substrFrom x (sizeSub x.length (halfLen x y)) = .ok x0 →
      substrFrom y (sizeSub y.length (halfLen x y)) = .ok y0 →
      (Inv (BigInt.ofString (highPart (halfLen x y) x)) ∧ Inv (BigInt.ofString x0) ∧
        Inv (BigInt.ofString (highPart (halfLen x y) y)) ∧ Inv (BigInt.ofString y0) ∧
        Inv ((BigInt.ofString (highPart (halfLen x y) x)).ADD (BigInt.ofString x0)) ∧
        Inv ((BigInt.ofString (highPart (halfLen x y) y)).ADD (BigInt.ofString y0))) ∧
      strVal (BigInt.ofString (highPart (halfLen x y) x)).value +
          strVal (BigInt.ofString (highPart (halfLen x y) y)).value < strVal x + strVal y ∧
      strVal (BigInt.ofString x0).value + strVal (BigInt.ofString y0).value
          < strVal x + strVal y ∧
      strVal ((BigInt.ofString (highPart (halfLen x y) x)).ADD (BigInt.ofString x0)).value +
          strVal ((BigInt.ofString (highPart (halfLen x y) y)).ADD (BigInt.ofString y0)).value
          < strVal x + strVal y) ∧
    (∀ fuel, strVal x + strVal y < fuel →
      karatsubaMultiply fuel x y ≠ .error .fuelExhausted) ∧
    (∀ fuel (sa sb : Bool), strVal x + strVal y < fuel →
      (⟨x, sa⟩ : BigInt).KARATSUBA_MULTIPLY fuel ⟨y, sb⟩ ≠ .error .fuelExhausted) := by
  have hterm : ∀ fuel, strVal x + strVal y < fuel →
      karatsubaMultiply fuel x y ≠ .error .fuelExhausted := by
    intro fuel hf
    rcases karatsuba_outcome fuel x y hx hy hx0 hy0 hfx hfy with ⟨r, hr, _⟩ | h | ⟨_, hn⟩
    · rw [hr]; intro hc; cases hc
    · rw [h]; intro hc; cases hc
    · exact absurd hf hn
  refine ⟨?_, hterm, ?_⟩
  · intro x0 y0 h0x h0y
    obtain ⟨hn1, hn2⟩ := halfLen_bounds x y hL
    have hmax : max x.length y.length < 2 ^ 31 := max_lt hfx hfy
    obtain ⟨hxn, rfl⟩ := substrFrom_ok_iff hfx (by omega) h0x
    obtain ⟨hyn, rfl⟩ := substrFrom_ok_iff hfy (by omega) h0y
    obtain ⟨dx1, dx2⟩ := drop_low_digits hx.2.1 hn1 hxn
    obtain ⟨dy1, dy2⟩ := drop_low_digits hy.2.1 hn1 hyn
    obtain ⟨px1, px2⟩ := highPart_digits hx.2.1 (halfLen x y)
    obtain ⟨py1, py2⟩ := highPart_digits hy.2.1 (halfLen x y)
    have hhigh : 1 ≤ strVal (highPart (halfLen x y) x) ∨
        1 ≤ strVal (highPart (halfLen x y) y) := by
      rcases lt_max_iff.mp hn2 with h | h
      · exact Or.inl (high_pos x hx hx0 _ h)
      · exact Or.inr (high_pos y hy hy0 _ h)
    have hsx := split_value x (halfLen x y) hxn
    have hsy := split_value y (halfLen x y) hyn
    rw [ofString_digits px2 px1, ofString_digits dx1 dx2, ofString_digits py2 py1,
      ofString_digits dy1 dy2, ofNat_ADD, ofNat_ADD]
    simp only [value_ofNat]
    have hP : 10 ≤ 10 ^ halfLen x y := by
      calc 10 = 10 ^ 1 := by norm_num
        _ ≤ 10 ^ halfLen x y := Nat.pow_le_pow_right (by norm_num) hn1
    have ha10 := Nat.mul_le_mul_left (strVal (highPart (halfLen x y) x)) hP
    have hb10 := Nat.mul_le_mul_left (strVal (highPart (halfLen x y) y)) hP
    refine ⟨⟨inv_ofNat _, inv_ofNat _, inv_ofNat _, inv_ofNat _, inv_ofNat _, inv_ofNat _⟩,
      ?_, ?_, ?_⟩ <;> omega
  · intro fuel sa sb hf
    unfold BigInt.KARATSUBA_MULTIPLY
    simp only
    rw [if_neg (by simp [hx0, hy0])]
    rcases karatsuba_outcome fuel x y hx hy hx0 hy0 hfx hfy with ⟨r, hr, _⟩ | h | ⟨_, hn⟩
    · rw [hr, ok_bind]; intro hc; cases hc
    · rw [h, error_bind]; intro hc; cases hc
    · exact absurd hf hn

/-- Witness for C17 at `x = 99`, `y = 99`, where the third call is on `(18, 18)`. -/
theorem karatsuba_wellfounded_witness :
    Normalized ['9', '9'] ∧ (['9', '9'] : List Char) ≠ ['0'] ∧
    2 ≤ max (['9', '9'] : List Char).length (['9', '9'] : List Char).length ∧
    (['9', '9'] : List Char).length < 2 ^ 31 ∧
    ∀ fuel, strVal ['9', '9'] + strVal ['9', '9'] < fuel →
      karatsubaMultiply fuel ['9', '9'] ['9', '9'] ≠ .error .fuelExhausted :=
  ⟨by decide, by decide, by decide, by decide,
    (karatsuba_wellfounded ['9', '9'] ['9', '9'] (by decide) (by decide) (by decide)
      (by decide) (by decide) (by decide) (by decide)).2.1⟩

/-- Claim C18: for all `a`, `b` satisfying the invariants (with magnitudes whose lengths
fit the `int n` of the code), whenever `KARATSUBA_MULTIPLY(a,b)` returns a value, that value
is `MULTIPLY(a,b)` and denotes the product of the integers `a` and `b` denote.  The call
never fails in `SUBTRACT`: in the combination `z1 = (x1+x0)(y1+y0) - z2 - z0` both
subtractions meet their precondition, since `z2 = x1*y1` and `z0 = x0*y0`. -/
theorem KARATSUBA_partial_correct (fuel : Nat) (a b : BigInt) (ha : Inv a) (hb : Inv b)
    (hfa : a.value.length < 2 ^ 31) (hfb : b.value.length < 2 ^ 31) :
    (∀ r, a.KARATSUBA_MULTIPLY fuel b = .ok r →
      r = a.MULTIPLY b ∧ r.toInt = a.toInt * b.toInt) ∧
    a.KARATSUBA_MULTIPLY fuel b ≠ .error .readBeforeStart ∧
    (∀ u v w t : Nat, ∃ q,
      (BigInt.ofNat ((u + v) * (w + t))).SUBTRACT (BigInt.ofNat (u * w)) = .ok q ∧
      q.SUBTRACT (BigInt.ofNat (v * t)) = .ok (BigInt.ofNat (u * t + v * w))) := by
  refine ⟨?_, ?_, ?_⟩
  · intro r hr
    have key : r = a.MULTIPLY b := by
      unfold BigInt.KARATSUBA_MULTIPLY at hr
      unfold BigInt.MULTIPLY
      by_cases h0 : a.value = ['0'] ∨ b.value = ['0']
      · rw [if_pos h0] at hr
        rw [if_pos h0]
        simp only [Except.ok.injEq] at hr
        exact hr.symm
      · rw [if_neg h0] at hr
        rw [if_neg h0]
        have hx0 : a.value ≠ ['0'] := fun h => h0 (Or.inl h)
        have hy0 : b.value ≠ ['0'] := fun h => h0 (Or.inr h)
        rcases karatsuba_outcome fuel a.value b.value (inv_normalized ha) (inv_normalized hb)
          hx0 hy0 hfa hfb with ⟨s, hs, hd, hne, hv⟩ | h | ⟨h, _⟩
        · rw [hs, ok_bind] at hr
          simp only [Except.ok.injEq] at hr
          have hn := toDecimal_normalized (strVal a.value * strVal b.value)
          rw [← hr]
          simp only [multiplyStrings_eq _ _ ha.1.2 hb.1.2, ofString_signed hne hd,
            ofString_signed hn.1 hn.2.1, hv, strVal_toDecimal]
        · rw [h, error_bind] at hr; cases hr
        · rw [h, error_bind] at hr; cases hr
    exact ⟨key, by rw [key]; exact toInt_MULTIPLY a b ha hb⟩
  · unfold BigInt.KARATSUBA_MULTIPLY
    by_cases h0 : a.value = ['0'] ∨ b.value = ['0']
    · rw [if_pos h0]; intro hc; cases hc
    · rw [if_neg h0]
      have hx0 : a.value ≠ ['0'] := fun h => h0 (Or.inl h)
      have hy0 : b.value ≠ ['0'] := fun h => h0 (Or.inr h)
      rcases karatsuba_outcome fuel a.value b.value (inv_normalized ha) (inv_normalized hb)
        hx0 hy0 hfa hfb with ⟨s, hs, _⟩ | h | ⟨h, _⟩
      · rw [hs, ok_bind]; intro hc; cases hc
      · rw [h, error_bind]; intro hc; cases hc
      · rw [h, error_bind]; intro hc; cases hc
  · intro u v w t
    have e1 : (u + v) * (w + t) = u * w + v * t + (u * t + v * w) := by ring
    refine ⟨_, SUBTRACT_eq _ _ (inv_ofNat _) (inv_ofNat _)
      (by rw [value_ofNat, value_ofNat]; omega), ?_⟩
    rw [value_ofNat, value_ofNat,
      SUBTRACT_eq _ _ (inv_ofNat _) (inv_ofNat _) (by rw [value_ofNat, value_ofNat]; omega),
      value_ofNat, value_ofNat]
    congr 2
    omega

set_option maxRecDepth 100000 in
/-- Witness for C18 at the driver's operands `252435234534` and `123456` with fuel 10. -/
theorem KARATSUBA_partial_correct_witness :
    Inv (BigInt.ofString "252435234534".toList) ∧ Inv (BigInt.ofString "123456".toList) ∧
    (BigInt.ofString "252435234534".toList).KARATSUBA_MULTIPLY 10
      (BigInt.ofString "123456".toList) = .ok (BigInt.ofString "31164644314629504".toList) ∧
    BigInt.ofString "31164644314629504".toList =
      (BigInt.ofString "252435234534".toList).MULTIPLY (BigInt.ofString "123456".toList) :=
  ⟨by decide, by decide, by decide,
    ((KARATSUBA_partial_correct 10 (BigInt.ofString "252435234534".toList)
      (BigInt.ofString "123456".toList) (by decide) (by decide) (by decide) (by decide)).1
      (BigInt.ofString "31164644314629504".toList) (by decide)).1⟩

/-- Claim C19: for all non-zero `a`, `b` satisfying the invariants (with magnitudes whose
lengths fit the `int n` of the code), if the shorter magnitude has fewer than
`n = ceil(L/2)` digits, `L` being the length of the longer one (then `L >= 2`),
`KARATSUBA_MULTIPLY(a,b)` does not return a value: the low part of the shorter operand is
taken at the position `size - n`, which wraps around, and `substr` fails with
`out_of_range`. -/
theorem KARATSUBA_short_operand (fuel : Nat) (a b : BigInt) (ha : Inv a) (hb : Inv b)
    (ha0 : a.value ≠ ['0']) (hb0 : b.value ≠ ['0'])
    (hfa : a.value.length < 2 ^ 31) (hfb : b.value.length < 2 ^ 31)
    (hshort : min a.value.length b.value.length <
      (max a.value.length b.value.length + 1) / 2) :
    a.KARATSUBA_MULTIPLY (fuel + 1) b = .error .outOfRange ∧
    (∀ f r, a.KARATSUBA_MULTIPLY f b ≠ .ok r) ∧
    2 ≤ max a.value.length b.value.length ∧
    halfLen a.value b.value = (max a.value.length b.value.length + 1) / 2 ∧
    (substrFrom a.value (sizeSub a.value.length (halfLen a.value b.value))
        = .error .outOfRange ∨
      substrFrom b.value (sizeSub b.value.length (halfLen a.value b.value))
        = .error .outOfRange) := by
  have hal : 0 < a.value.length := List.length_pos.mpr ha.1.1
  have hbl : 0 < b.value.length := List.length_pos.mpr hb.1.1
  have hmin : 1 ≤ min a.value.length b.value.length := le_min hal hbl
  have hL : 2 ≤ max a.value.length b.value.length := by omega
  have hhalf : halfLen a.value b.value = (max a.value.length b.value.length + 1) / 2 := by
    unfold halfLen; omega
  have hmax : max a.value.length b.value.length < 2 ^ 31 := max_lt hfa hfb
  have hn31 : halfLen a.value b.value < 2 ^ 64 := by
    rw [hhalf]; omega
  have hstep : ∀ f, karatsubaMultiply (f + 1) a.value b.value = .error .outOfRange := by
    intro f
    rw [karatsubaMultiply_split, if_neg (by omega)]
    by_cases hxs : a.value.length < halfLen a.value b.value
    · rw [substrFrom_short hxs hn31, error_bind]
    · rw [substrFrom_low (by omega) (by omega), ok_bind]
      have hys : b.value.length < halfLen a.value b.value := by
        rw [hhalf] at hxs ⊢
        rcases min_lt_iff.mp hshort with h | h
        · exact absurd h hxs
        · exact h
      rw [substrFrom_short hys hn31, error_bind]
  have hK : ∀ f, a.KARATSUBA_MULTIPLY (f + 1) b = .error .outOfRange := by
    intro f
    unfold BigInt.KARATSUBA_MULTIPLY
    rw [if_neg (by simp [ha0, hb0]), hstep f, error_bind]
  refine ⟨hK fuel, ?_, hL, hhalf, ?_⟩
  · intro f r
    cases f with
    | zero =>
      unfold BigInt.KARATSUBA_MULTIPLY
      rw [if_neg (by simp [ha0, hb0])]
      intro hc
      cases hc
    | succ f =>
      rw [hK f]
      intro hc
      cases hc
  · rw [hhalf]
    rcases min_lt_iff.mp hshort with h | h
    · left; exact substrFrom_short h (by omega)
    · right; exact substrFrom_short h (by omega)

/-- Witness for C19 at `a = 5`, `b = 1234`. -/
theorem KARATSUBA_short_operand_witness :
    Inv ⟨['5'], true⟩ ∧ Inv ⟨['1', '2', '3', '4'], true⟩ ∧
    min (⟨['5'], true⟩ : BigInt).value.length (⟨['1', '2', '3', '4'], true⟩ : BigInt).value.length
      < (max (⟨['5'], true⟩ : BigInt).value.length
          (⟨['1', '2', '3', '4'], true⟩ : BigInt).value.length + 1) / 2 ∧
    (⟨['5'], true⟩ : BigInt).KARATSUBA_MULTIPLY (0 + 1) ⟨['1', '2', '3', '4'], true⟩
      = .error .outOfRange :=
  ⟨by decide, by decide, by decide,
    (KARATSUBA_short_operand 0 ⟨['5'], true⟩ ⟨['1', '2', '3', '4'], true⟩ (by decide)
      (by decide) (by decide) (by decide) (by decide) (by decide) (by decide)).1⟩

end BigNumbers
